import Mathlib

/-!
# mux: a FUSE fan-out multiplexer — shallow embedding of `mux.c`

The registry `muxs[Muxmax]`, the operations `muxfind`, `mux_openr`, `mux_open`,
`mux_release`, `mux_read`, `writeall` and `mux_write` are translated from `mux.c`.

Conventions of the embedding

* C `int` values are `Int`; counts stay far below `2^31` (FUSE bounds request sizes), so
  no wrap-around is modelled for them.  `fi->fh` is a `uint64_t`: it is a `Nat`, and an
  `int` stored into it goes through `toU64`.
* A `char` buffer is a `List Nat`; it is read as the C string that ends at its first NUL
  byte (`cstr`).
* An array of `n` cells is a function on `Fin n`.  An access at an index outside the array
  is undefined behaviour in C; the embedding reads a zero there and drops the write.
* The one index that the code takes from its caller without a check is the slot index
  `i = fi->fh / Muxmax` of `mux_release` and `mux_read`, and `mux_open` leaves values in
  `fi->fh` (a negated error number) for which it falls outside `0..7`.  For the accesses
  `muxs[m].rh[i]` and `muxs[m].wh[i]` of these two functions the embedding therefore follows
  the address: `muxs` is laid out as 8 records of 100 bytes, `path` at offset 0, `rh` at 32,
  `wh` at 64, `c` at 96, an `int` being 4 bytes stored low byte first.  An address inside
  `muxs` reads and writes the member it falls on; an address outside `muxs` reads zero and
  drops the write.
* The calls `pipe`, `read`, `write`, `close` are answered by an explicit `Kernel`
  state: a descriptor table, one FIFO byte queue per pipe, and the decisions of the
  environment (whether a `pipe` call fails; whether a `write` call fails or how many bytes it
  accepts).  A pipe read on an empty queue yields zero bytes (blocking is not modelled).
* The mutex `openlock` and the atomic compare-and-swap are executed sequentially.
-/

namespace Mux

/-! ## Constants -/

abbrev Readmax : Nat := 8
abbrev Muxmax : Nat := 8
abbrev Pathmax : Nat := 32

abbrev ENOENT : Int := 2
abbrev EBADF : Int := 9
abbrev ENOMEM : Int := 12
abbrev EACCES : Int := 13
abbrev ENAMETOOLONG : Int := 36

abbrev O_RDONLY : Nat := 0
abbrev O_WRONLY : Nat := 1

/-! ## C strings -/

/-- The C string held in a buffer: the bytes before the first NUL. -/
def cstr (l : List Nat) : List Nat := l.takeWhile (fun c => c != 0)

/-- Length of a C string, `strlen`. -/
def strlen (l : List Nat) : Nat := (cstr l).length

/-- Result buffer of `strncpy(dst, src, n)`: the first `n` bytes of the string, padded
with NUL bytes up to `n`. -/
def strncpy (src : List Nat) (n : Nat) : List Nat :=
  (cstr src).take n ++ List.replicate (n - (cstr src).length) 0

/-- Test `strcmp(a, b) == 0`. -/
def streq (a b : List Nat) : Bool := cstr a == cstr b

/-! ## Arrays -/

/-- Read of cell `i`; zero outside the array. -/
def rd {n : Nat} (a : Fin n → Int) (i : Nat) : Int :=
  if h : i < n then a ⟨i, h⟩ else 0

/-- Store of `v` into cell `i`; dropped outside the array. -/
def wr {n : Nat} (a : Fin n → Int) (i : Nat) (v : Int) : Fin n → Int :=
  fun j => if j.val = i then v else a j

/-- Value of `i` after `for(i = i0; i < i0 + n; i++) if (p i) break;`. -/
def scan (p : Nat → Bool) : Nat → Nat → Nat
  | 0, i => i
  | n + 1, i => if p i then i else scan p n (i + 1)

/-! ## Layout of `muxs` in memory -/

/-- Size in bytes of a `struct muxpoint`: 32 bytes of `path`, 8 `int`s of `rh`, 8 `int`s of
`wh` and the `int` `c`, with an `int` of 4 bytes. -/
abbrev Pointsize : Nat := 100

/-- Conversion of an unsigned value to `int`: the low 32 bits, read in two's complement. -/
def toInt32 (x : Nat) : Int :=
  if x % 2 ^ 32 < 2 ^ 31 then ((x % 2 ^ 32 : Nat) : Int) else ((x % 2 ^ 32 : Nat) : Int) - 2 ^ 32

/-- The `int` held in the four bytes of a buffer from offset `o` on, low byte first. -/
def loadInt (l : List Nat) (o : Nat) : Int :=
  toInt32 (l.getD o 0 + 256 * l.getD (o + 1) 0 + 65536 * l.getD (o + 2) 0
    + 16777216 * l.getD (o + 3) 0)

/-- Store of the `int` `v` into the four bytes of a buffer from offset `o` on, low byte
first. -/
def storeInt (l : List Nat) (o : Nat) (v : Int) : List Nat :=
  (((l.set o ((v % 2 ^ 32).toNat % 256)).set (o + 1) ((v % 2 ^ 32).toNat / 256 % 256)).set
    (o + 2) ((v % 2 ^ 32).toNat / 65536 % 256)).set (o + 3) ((v % 2 ^ 32).toNat / 16777216 % 256)

/-! ## The kernel: descriptors and pipes -/

/-- An error number as left in `errno` by a failing call: a positive integer. -/
structure Errno where
  val : Nat
  pos : 0 < val

/-- Decision of the environment for one `write` call on a pipe: the call fails with an error
number, or the pipe accepts at most `n` of the offered bytes. -/
inductive WDecision where
  | fail (e : Errno)
  | accept (n : Nat)

/-- State of the operating system as far as `mux.c` can observe it. -/
structure Kernel where
  /-- Descriptor table: an open descriptor is the write end (`true`) or the read end
  (`false`) of a pipe. -/
  fdt : Int → Option (Bool × Nat)
  /-- Bytes queued in each pipe, oldest first. -/
  buf : Nat → List Nat
  /-- Next descriptor number handed out. -/
  nextfd : Int
  /-- Number of `pipe` calls made so far; the next pipe gets this number. -/
  npipe : Nat
  /-- Environment: error number with which the `pipe` call of that rank fails, if it does. -/
  pdec : Nat → Option Errno
  /-- Number of `write` calls that reached a pipe so far. -/
  nwrite : Nat
  /-- Environment: decision for the `write` call of that rank. -/
  wdec : Nat → WDecision
  /-- History of the accepted writes: descriptor and accepted bytes, oldest first. -/
  wlog : List (Int × List Nat)
  /-- The C variable `errno`. -/
  errno : Int

/-- The call `pipe(fds)`: on success a new pipe and two descriptors for it, read end first.
The numbers handed out go up from `nextfd` and are not used again, where `pipe(2)` takes the
lowest numbers not in use. -/
def sys_pipe (k : Kernel) : Kernel × Option (Int × Int) :=
  match k.pdec k.npipe with
  | some e => ({ k with npipe := k.npipe + 1, errno := e.val }, none)
  | none =>
    ({ k with
        fdt := fun fd =>
          if fd = k.nextfd then some (false, k.npipe)
          else if fd = k.nextfd + 1 then some (true, k.npipe)
          else k.fdt fd
        buf := fun q => if q = k.npipe then [] else k.buf q
        nextfd := k.nextfd + 2
        npipe := k.npipe + 1 },
     some (k.nextfd, k.nextfd + 1))

/-- The call `close(fd)`. -/
def sys_close (k : Kernel) (fd : Int) : Kernel :=
  { k with fdt := fun x => if x = fd then none else k.fdt x }

/-- The call `write(fd, data, |data|)`: the new kernel state and the returned count,
`-1` on failure. -/
def sys_write (k : Kernel) (fd : Int) (data : List Nat) : Kernel × Int :=
  match k.fdt fd with
  | some (true, q) =>
    match k.wdec k.nwrite with
    | WDecision.fail e => ({ k with nwrite := k.nwrite + 1, errno := e.val }, -1)
    | WDecision.accept n =>
      ({ k with
          nwrite := k.nwrite + 1
          buf := fun x => if x = q then k.buf q ++ data.take n else k.buf x
          wlog := k.wlog ++ [(fd, data.take n)] },
       ((data.take n).length : Int))
  | _ => ({ k with errno := EBADF }, -1)

/-- The call `read(fd, buf, size)`: the new kernel state, the returned count (`-1` on
failure) and the bytes stored into `buf`. -/
def sys_read (k : Kernel) (fd : Int) (size : Nat) : Kernel × Int × List Nat :=
  match k.fdt fd with
  | some (false, q) =>
    ({ k with buf := fun x => if x = q then (k.buf q).drop size else k.buf x },
     (((k.buf q).take size).length : Int), (k.buf q).take size)
  | _ => ({ k with errno := EBADF }, -1, [])

/-! ## The registry -/

/-- The record `struct muxpoint`. -/
structure muxpoint where
  path : List Nat
  rh : Fin Readmax → Int
  wh : Fin Readmax → Int
  c : Int

/-- The whole state: the global `muxs[Muxmax]` and the kernel. -/
structure State where
  muxs : Fin Muxmax → muxpoint
  k : Kernel

/-- A zeroed `struct muxpoint`. -/
def zeroPoint : muxpoint :=
  { path := List.replicate Pathmax 0, rh := fun _ => 0, wh := fun _ => 0, c := 0 }

/-- Read of `muxs[i]`; a zeroed record outside the array. -/
def State.pt (s : State) (i : Nat) : muxpoint :=
  if h : i < Muxmax then s.muxs ⟨i, h⟩ else zeroPoint

/-- Store into `muxs[i]`; dropped outside the array. -/
def State.setPt (s : State) (i : Nat) (p : muxpoint) : State :=
  { s with muxs := fun j => if j.val = i then p else s.muxs j }

/-- Read of the `int` at byte offset `a` (a multiple of 4) from the start of `muxs`: the
member of the record that the offset falls on; zero outside `muxs`. -/
def State.loadAt (s : State) (a : Int) : Int :=
  if 0 ≤ a ∧ a < (Muxmax : Int) * (Pointsize : Int) then
    if a.toNat % Pointsize < 32 then
      loadInt (s.pt (a.toNat / Pointsize)).path (a.toNat % Pointsize)
    else if a.toNat % Pointsize < 64 then
      rd (s.pt (a.toNat / Pointsize)).rh ((a.toNat % Pointsize - 32) / 4)
    else if a.toNat % Pointsize < 96 then
      rd (s.pt (a.toNat / Pointsize)).wh ((a.toNat % Pointsize - 64) / 4)
    else (s.pt (a.toNat / Pointsize)).c
  else 0

/-- Store of the `int` `v` at byte offset `a` (a multiple of 4) from the start of `muxs`,
into the member of the record that the offset falls on; dropped outside `muxs`. -/
def State.storeAt (s : State) (a : Int) (v : Int) : State :=
  if 0 ≤ a ∧ a < (Muxmax : Int) * (Pointsize : Int) then
    if a.toNat % Pointsize < 32 then
      s.setPt (a.toNat / Pointsize)
        { s.pt (a.toNat / Pointsize) with
          path := storeInt (s.pt (a.toNat / Pointsize)).path (a.toNat % Pointsize) v }
    else if a.toNat % Pointsize < 64 then
      s.setPt (a.toNat / Pointsize)
        { s.pt (a.toNat / Pointsize) with
          rh := wr (s.pt (a.toNat / Pointsize)).rh ((a.toNat % Pointsize - 32) / 4) v }
    else if a.toNat % Pointsize < 96 then
      s.setPt (a.toNat / Pointsize)
        { s.pt (a.toNat / Pointsize) with
          wh := wr (s.pt (a.toNat / Pointsize)).wh ((a.toNat % Pointsize - 64) / 4) v }
    else s.setPt (a.toNat / Pointsize) { s.pt (a.toNat / Pointsize) with c := v }
  else s

/-- The kernel at program start: no pipe yet, descriptors 0, 1, 2 taken by the standard
streams.  These are no pipes, so the descriptor table does not list them, and a `close` of
one of them changes nothing in this state. -/
def Kernel.init (pdec : Nat → Option Errno) (wdec : Nat → WDecision) : Kernel :=
  { fdt := fun _ => none, buf := fun _ => [], nextfd := 3, npipe := 0, pdec := pdec,
    nwrite := 0, wdec := wdec, wlog := [], errno := 0 }

/-- The state at program start: `muxs` is zero-filled static storage. -/
def State.init (pdec : Nat → Option Errno) (wdec : Nat → WDecision) : State :=
  { muxs := fun _ => zeroPoint, k := Kernel.init pdec wdec }

/-- The part of `struct fuse_file_info` that `mux.c` uses. -/
structure fuse_file_info where
  flags : Nat
  fh : Nat
  direct_io : Nat
  nonseekable : Nat

/-- Conversion of an `int` to `uint64_t`. -/
def toU64 (x : Int) : Nat := (x % (2 : Int) ^ 64).toNat

/-! ## Handle codec -/

/-- The read handle returned by `mux_openr`: `i*Muxmax+m`. -/
def rhandle (i m : Nat) : Int := (i : Int) * (Muxmax : Int) + (m : Int)

/-- Decoding `m = fi->fh % Muxmax`. -/
def fhMux (fh : Nat) : Nat := fh % Muxmax

/-- Decoding `i = fi->fh / Muxmax`. -/
def fhSlot (fh : Nat) : Nat := fh / Muxmax

/-- The variable `int i` of `mux_release` and `mux_read` after `i = fi->fh / Muxmax`: the
quotient, computed in `uint64_t`, converted to `int`. -/
def slotIndex (fh : Nat) : Int := toInt32 (fhSlot fh)

/-- Byte offset, from the start of `muxs`, of the cell `muxs[m].rh[i]`. -/
def rhAddr (m : Nat) (i : Int) : Int := (m : Int) * (Pointsize : Int) + 32 + 4 * i

/-- Byte offset, from the start of `muxs`, of the cell `muxs[m].wh[i]`. -/
def whAddr (m : Nat) (i : Int) : Int := (m : Int) * (Pointsize : Int) + 64 + 4 * i

/-! ## Operations -/

/-- First loop of `muxfind`: index of the first entry whose path equals `path`, `Muxmax`
when there is none. -/
def hitIdx (s : State) (path : List Nat) : Nat :=
  scan (fun i => streq (s.pt i).path path) Muxmax 0

/-- Second loop of `muxfind`: index of the first entry whose path is empty, `Muxmax` when
there is none. -/
def freeIdx (s : State) : Nat :=
  scan (fun i => (s.pt i).path.headD 0 == 0) Muxmax 0

/-- The value of `i` at the statement `muxs[i].c++` of `muxfind`. -/
def muxfind_index (s : State) (path : List Nat) : Nat :=
  if hitIdx s path = Muxmax then freeIdx s else hitIdx s path

/-- The function `muxfind`: the new state and the returned value. -/
def muxfind (s : State) (path : List Nat) : State × Int :=
  let j := muxfind_index s path
  let s1 :=
    if hitIdx s path = Muxmax ∧ j < Muxmax then
      s.setPt j { s.pt j with path := strncpy path Pathmax }
    else s
  let s2 := s1.setPt j { s1.pt j with c := (s1.pt j).c + 1 }
  (s2, if j = Muxmax then -ENOMEM else (j : Int))

/-- The function `mux_openr`: the new state and the returned value. -/
def mux_openr (s : State) (path : List Nat) : State × Int :=
  let r := muxfind s path
  if r.2 < 0 then (r.1, r.2)
  else
    let m := r.2.toNat
    match sys_pipe r.1.k with
    | (k1, none) => ({ r.1 with k := k1 }, 0 - k1.errno)
    | (k1, some (fd0, fd1)) =>
      let s1 : State := { r.1 with k := k1 }
      let i := scan (fun i => rd (s1.pt m).wh i == 0) Readmax 0
      if i = Readmax then
        ({ s1 with k := sys_close (sys_close k1 fd0) fd1 }, -ENOMEM)
      else
        let s2 := s1.setPt m { s1.pt m with wh := wr (s1.pt m).wh i fd1 }
        let s3 := s2.setPt m { s2.pt m with rh := wr (s2.pt m).rh i fd0 }
        (s3, rhandle i m)

/-- The function `mux_open`: the new state, the updated `*fi` and the returned value. -/
def mux_open (s : State) (path : List Nat) (fi : fuse_file_info) :
    State × fuse_file_info × Int :=
  if strlen path > Pathmax - 1 then (s, fi, -ENAMETOOLONG)
  else
    let fi1 := { fi with direct_io := 1, nonseekable := 1 }
    if fi1.flags &&& 3 = O_RDONLY then
      let r := mux_openr s path
      (r.1, { fi1 with fh := toU64 r.2 }, 0)
    else if fi1.flags &&& 3 = O_WRONLY then
      let r := muxfind s path
      (r.1, { fi1 with fh := toU64 r.2 }, 0)
    else (s, fi1, -EACCES)

/-- Lines 89-95 of `mux_release`: for a file opened read-only, both descriptors of its
slot are closed and both cells of the slot are reset.  The slot index `i` is what `fi->fh`
gives, so the four accesses go by address (`State.loadAt`, `State.storeAt`). -/
def release_slot (s : State) (fi : fuse_file_info) : State :=
  let m := fhMux fi.fh
  if fi.flags &&& 3 = O_RDONLY then
    let i := slotIndex fi.fh
    let k1 := sys_close (sys_close s.k (s.loadAt (rhAddr m i))) (s.loadAt (whAddr m i))
    let sa : State := { s with k := k1 }
    let sb := sa.storeAt (whAddr m i) 0
    sb.storeAt (rhAddr m i) 0
  else s

/-- Lines 96-97 of `mux_release`: `muxs[m].c--`, and the path is cleared when the count
is zero. -/
def release_ref (s1 : State) (m : Nat) : State :=
  let s2 := s1.setPt m { s1.pt m with c := (s1.pt m).c - 1 }
  if (s2.pt m).c = 0 then s2.setPt m { s2.pt m with path := (s2.pt m).path.set 0 0 }
  else s2

/-- The function `mux_release`: the new state and the returned value. -/
def mux_release (s : State) (fi : fuse_file_info) : State × Int :=
  (release_ref (release_slot s fi) (fhMux fi.fh), 0)

/-- The function `mux_read`: the new state, the returned value and the bytes stored into
the caller's buffer. -/
def mux_read (s : State) (size : Nat) (fi : fuse_file_info) : State × Int × List Nat :=
  let m := fhMux fi.fh
  let i := slotIndex fi.fh
  let r := sys_read s.k (s.loadAt (rhAddr m i)) size
  if r.2.1 < 0 then ({ s with k := r.1 }, 0 - r.1.errno, r.2.2)
  else ({ s with k := r.1 }, r.2.1, r.2.2)

/-- The function `writeall`, from offset `o` on.  The loop runs as long as `write` leaves
bytes unsent, so the embedding takes a bound on the number of iterations; `none` means the
bound was reached. -/
def writeall_from : Nat → Kernel → Int → List Nat → Nat → Option (Kernel × Int)
  | 0, _, _, _, _ => none
  | fuel + 1, k, fd, buf, o =>
    if o < buf.length then
      let r := sys_write k fd (buf.drop o)
      if r.2 < 0 then some (r.1, 0 - r.1.errno)
      else writeall_from fuel r.1 fd buf (o + r.2.toNat)
    else some (k, (o : Int))

/-- The function `writeall`. -/
def writeall (fuel : Nat) (k : Kernel) (fd : Int) (buf : List Nat) : Option (Kernel × Int) :=
  writeall_from fuel k fd buf 0

/-- The loop of `mux_write` over the slots `i, i+1, ...` (`n` of them) of one mux point. -/
def mux_write_loop (fuel : Nat) (wh : Fin Readmax → Int) (buf : List Nat) :
    Nat → Nat → Kernel → Option (Kernel × Int)
  | 0, _, k => some (k, (buf.length : Int))
  | n + 1, i, k =>
    if rd wh i ≠ 0 then
      match writeall fuel k (rd wh i) buf with
      | none => none
      | some r => if r.2 < 0 then some r else mux_write_loop fuel wh buf n (i + 1) r.1
    else mux_write_loop fuel wh buf n (i + 1) k

/-- The function `mux_write`: the new state and the returned value; `none` when a
`writeall` loop did not end within `fuel` iterations. -/
def mux_write (fuel : Nat) (s : State) (buf : List Nat) (fi : fuse_file_info) :
    Option (State × Int) :=
  (mux_write_loop fuel (s.pt fi.fh).wh buf Readmax 0 s.k).map
    (fun r => ({ s with k := r.1 }, r.2))

/-- The loop of `mux_readdir` over the entries `i, i+1, ...` (`n` of them): the names passed
to `filler`, in order.  The name of an entry is the string at `muxs[i].path+1`. -/
def readdir_loop (s : State) : Nat → Nat → List (List Nat)
  | 0, _ => []
  | n + 1, i =>
    if (s.pt i).path.headD 0 = 47 then cstr ((s.pt i).path.drop 1) :: readdir_loop s n (i + 1)
    else readdir_loop s n (i + 1)

/-- The function `mux_readdir`: the names passed to `filler`, in order, and the returned
value.  The value returned by `filler` is not looked at by the code. -/
def mux_readdir (s : State) (path : List Nat) : List (List Nat) × Int :=
  if streq path [47] = false then ([], -ENOENT)
  else ([46] :: [46, 46] :: readdir_loop s Muxmax 0, 0)

/-! ## Observing what a run wrote -/

/-- The bytes of a piece of the write history, in the order they were accepted. -/
def logBytes : List (Int × List Nat) → List Nat
  | [] => []
  | e :: l => e.2 ++ logBytes l

/-- Between the kernel states `k` and `k1` exactly the bytes `d` were accepted on descriptor
`fd` (in any number of `write` calls) and nothing else happened to descriptors and pipes:
the descriptor table and the environment are the same, the write history grew by entries
on `fd` whose bytes are `d`, and `d` was appended to the queue of the pipe behind `fd`
while every other queue is the same. -/
def Wrote (k k1 : Kernel) (fd : Int) (d : List Nat) : Prop :=
  k1.fdt = k.fdt ∧ k1.nextfd = k.nextfd ∧ k1.npipe = k.npipe ∧ k1.pdec = k.pdec ∧
    k1.wdec = k.wdec ∧
    (∃ seg, k1.wlog = k.wlog ++ seg ∧ (∀ e ∈ seg, e.1 = fd) ∧ logBytes seg = d) ∧
    ∀ q, k1.buf q = if k.fdt fd = some (true, q) then k.buf q ++ d else k.buf q

/-- The broadcast of `b` over the slots `wh`, started in kernel state `k0`, fails first on
slot `j`: slot `j` is claimed; `ks t` is the kernel state before slot `t` is handled, an
unclaimed slot below `j` leaves it alone and the full write on a claimed slot below `j`
succeeds; the full write on slot `j` returns the error `r` and ends in `k1`. -/
def AbortsAt (fuel : Nat) (wh : Fin Readmax → Int) (b : List Nat) (k0 : Kernel)
    (ks : Nat → Kernel) (j : Nat) (k1 : Kernel) (r : Int) : Prop :=
  j < Readmax ∧ rd wh j ≠ 0 ∧ ks 0 = k0 ∧
    (∀ t, t < j → rd wh t = 0 → ks (t + 1) = ks t) ∧
    (∀ t, t < j → rd wh t ≠ 0 →
      writeall fuel (ks t) (rd wh t) b = some (ks (t + 1), (b.length : Int))) ∧
    writeall fuel (ks j) (rd wh j) b = some (k1, r) ∧ r < 0

/-! ## Scenarios -/

/-- The scenario of `n` successive read-only opens of `path`: the final state and the
`fuse_file_info` records filled in by `mux_open`, in the order of the opens. -/
def openReaders (path : List Nat) (fi : fuse_file_info) : Nat → State → State × List fuse_file_info
  | 0, s => (s, [])
  | n + 1, s =>
    ((openReaders path fi n (mux_open s path fi).1).1,
     (mux_open s path fi).2.1 :: (openReaders path fi n (mux_open s path fi).1).2)

/-- Shape of the state after the broadcast of `b` to the `n` readers of entry `m`: slot
`i < n` holds the read end `f0+2i` of pipe `p0+i`, and the pipes of the slots from `lo` on
hold exactly `b`. -/
def FedState (m n : Nat) (f0 : Int) (p0 : Nat) (b : List Nat) (lo : Nat) (t : State) : Prop :=
  m < Muxmax ∧ n ≤ Readmax ∧
    ∀ i, i < n → rd (t.pt m).rh i = f0 + 2 * (i : Int) ∧
      t.k.fdt (f0 + 2 * (i : Int)) = some (false, p0 + i) ∧ (lo ≤ i → t.k.buf (p0 + i) = b)

/-! ## Descriptors and channels -/

/-- The pipe descriptors stored in distinct claimed slots are distinct: no descriptor of a
claimed slot is a descriptor of another claimed slot. -/
def DistinctDescriptors (s : State) : Prop :=
  ∀ (m m2 : Fin Muxmax) (i i2 : Fin Readmax), (s.muxs m).wh i ≠ 0 → (s.muxs m2).wh i2 ≠ 0 →
    ¬ (m = m2 ∧ i = i2) →
    (s.muxs m).wh i ≠ (s.muxs m2).wh i2 ∧ (s.muxs m).wh i ≠ (s.muxs m2).rh i2 ∧
      (s.muxs m).rh i ≠ (s.muxs m2).wh i2 ∧ (s.muxs m).rh i ≠ (s.muxs m2).rh i2

/-- Every end of every pipe is open under one descriptor at most: descriptors come from
`pipe`, which makes a new pipe each time, and are never duplicated. -/
def OneDescriptorPerEnd (k : Kernel) : Prop :=
  ∀ x y e q, k.fdt x = some (e, q) → k.fdt y = some (e, q) → x = y

/-- Slot `i` of entry `m` is a reader slot whose channel is the pipe `q`: the slot is claimed
and holds the write end and the read end of `q`. -/
def ReaderSlot (s : State) (m : Fin Muxmax) (i : Fin Readmax) (q : Nat) : Prop :=
  (s.muxs m).wh i ≠ 0 ∧ s.k.fdt ((s.muxs m).wh i) = some (true, q) ∧
    s.k.fdt ((s.muxs m).rh i) = some (false, q)

/-- The kernel states that system calls produce from the state at program start, whatever
the calls and their arguments. -/
inductive KernelRun : Kernel → Prop where
  | start (pdec : Nat → Option Errno) (wdec : Nat → WDecision) :
      KernelRun (Kernel.init pdec wdec)
  | piped (k : Kernel) : KernelRun k → KernelRun (sys_pipe k).1
  | closed (k : Kernel) (fd : Int) : KernelRun k → KernelRun (sys_close k fd)
  | written (k : Kernel) (fd : Int) (data : List Nat) : KernelRun k →
      KernelRun (sys_write k fd data).1
  | readDone (k : Kernel) (fd : Int) (size : Nat) : KernelRun k →
      KernelRun (sys_read k fd size).1

/-- No two different entries hold the same non-empty path. -/
def UniquePaths (s : State) : Prop :=
  ∀ i j : Fin Muxmax, i ≠ j → cstr (s.muxs i).path ≠ [] →
    cstr (s.muxs i).path ≠ cstr (s.muxs j).path

/-! ## Call sequences with their open handles -/

/-- The core open called by `mux_open` yields a handle: the access mode is read-only or
write-only and `mux_openr`, respectively `muxfind`, returns a non-negative value. -/
def OpenYields (s : State) (path : List Nat) (fi : fuse_file_info) : Prop :=
  (fi.flags &&& 3 = O_RDONLY ∧ 0 ≤ (mux_openr s path).2) ∨
    (fi.flags &&& 3 = O_WRONLY ∧ 0 ≤ (muxfind s path).2)

/-- `Trace s L`: the state `s` is reached from the initial all-zero registry by calls of
`mux_open`, on paths that begin with the separator and have at most 31 characters, and of
`mux_release`, and `L` lists the open files: those whose open yielded a handle and that
were not released yet.  A release takes its file out of the list, so that every handle is
released at most once. -/
inductive Trace : State → List fuse_file_info → Prop where
  | start (pdec : Nat → Option Errno) (wdec : Nat → WDecision) :
      Trace (State.init pdec wdec) []
  | opened (s : State) (L : List fuse_file_info) (path : List Nat) (fi : fuse_file_info) :
      Trace s L → (cstr path).headD 0 = 47 → strlen path ≤ Pathmax - 1 →
      OpenYields s path fi → Trace (mux_open s path fi).1 ((mux_open s path fi).2.1 :: L)
  | failed (s : State) (L : List fuse_file_info) (path : List Nat) (fi : fuse_file_info) :
      Trace s L → (cstr path).headD 0 = 47 → strlen path ≤ Pathmax - 1 →
      ¬ OpenYields s path fi → Trace (mux_open s path fi).1 L
  | released (s : State) (L1 L2 : List fuse_file_info) (fi : fuse_file_info) :
      Trace s (L1 ++ fi :: L2) → Trace (mux_release s fi).1 (L1 ++ L2)

/-- Number of open files of the list whose handle decodes to mux point `m`. -/
def handlesOn (L : List fuse_file_info) (m : Nat) : Nat :=
  L.countP (fun fi => fhMux fi.fh == m)

/-- The refcount invariant along a trace: an entry has refcount 0 exactly when its path is
empty; its refcount is at least the number of open files on it; its path is empty or begins
with the separator. -/
structure RefInv (s : State) (L : List fuse_file_info) : Prop where
  zero_iff : ∀ m : Fin Muxmax, (s.muxs m).c = 0 ↔ (s.muxs m).path.headD 0 = 0
  counted : ∀ m : Fin Muxmax, (handlesOn L m.val : Int) ≤ (s.muxs m).c
  sep : ∀ m : Fin Muxmax, (s.muxs m).path.headD 0 = 0 ∨ (s.muxs m).path.headD 0 = 47

/-- The `write` calls of rank `lo` to `hi - 1` are all accepted by the environment. -/
def AllAccepted (k : Kernel) (lo hi : Nat) : Prop :=
  ∀ c, lo ≤ c → c < hi → ∃ n, k.wdec c = WDecision.accept n

/-- Between `k` and `k1` the last `write` call made on `fd` failed and every call before it
was accepted: either `fd` is no write end of a pipe, the first call failed with `EBADF`
and no call reached a pipe; or the calls that reached the pipe have the ranks `k.nwrite` to
`k1.nwrite - 1`, the last of them failed with the error number now in `errno`, and the
others were accepted. -/
def LastCallFailed (k k1 : Kernel) (fd : Int) : Prop :=
  ((∀ q, k.fdt fd ≠ some (true, q)) ∧ k1.nwrite = k.nwrite ∧ k1.errno = EBADF) ∨
    (∃ e : Errno, k.nwrite < k1.nwrite ∧ k.wdec (k1.nwrite - 1) = WDecision.fail e ∧
      k1.errno = e.val ∧ AllAccepted k k.nwrite (k1.nwrite - 1))

/-! ## Concrete states used as instances -/

/-- The state at program start, in an environment where every `pipe` call succeeds and every
`write` call accepts up to 65536 bytes. -/
def emptyState : State := State.init (fun _ => none) (fun _ => WDecision.accept 65536)

/-- The path `/a`. -/
def pathA : List Nat := [47, 97]

/-- The path `/z`. -/
def pathZ : List Nat := [47, 122]

/-- A registry whose 8 entries hold the paths `/a` to `/h`, each with one open handle. -/
def fullState : State :=
  { muxs := fun i =>
      { path := strncpy [47, 97 + i.val] Pathmax, rh := fun _ => 0, wh := fun _ => 0, c := 1 }
    k := Kernel.init (fun _ => none) (fun _ => WDecision.accept 65536) }

/-- Flags and handle of a write-only open file. -/
def fiWr (fh : Nat) : fuse_file_info := { flags := O_WRONLY, fh := fh, direct_io := 1, nonseekable := 1 }

/-- Flags and handle of a read-only open file. -/
def fiRd (fh : Nat) : fuse_file_info := { flags := O_RDONLY, fh := fh, direct_io := 1, nonseekable := 1 }

/-- The error number `EMFILE` (too many open files). -/
def EMFILE : Errno := { val := 24, pos := by decide }

/-- The error number `EPIPE`. -/
def EPIPE : Errno := { val := 32, pos := by decide }

/-- The state reached from program start by 8 read-only opens of `/a`, in an environment
where the ninth `pipe` call fails with `EMFILE` if `pipeFails` is set. -/
def eightReaders (pipeFails : Bool) : State :=
  (fun s => (mux_open s pathA (fiRd 0)).1)^[8]
    (State.init (fun n => if n = 8 ∧ pipeFails = true then some EMFILE else none)
      (fun _ => WDecision.accept 65536))

/-- The bytes `hi`. -/
def bytesHi : List Nat := [104, 105]

/-- The state reached from program start by a write-only open and three read-only opens of
`/a`, in an environment where the second `write` call fails with `EPIPE`. -/
def abortState : State :=
  (fun s => (mux_open s pathA (fiRd 0)).1)^[3]
    (mux_open
      (State.init (fun _ => none)
        (fun n => if n = 1 then WDecision.fail EPIPE else WDecision.accept 65536))
      pathA (fiWr 0)).1

/-- Kernel states before slot 0 and before slot 1 in the broadcast of `hi` from
`abortState`. -/
def abortKs (t : Nat) : Kernel :=
  if t = 0 then abortState.k else ((writeall 2 abortState.k 4 bytesHi).getD (abortState.k, 0)).1

/-- Kernel state after the failed write on slot 1 in the broadcast of `hi` from
`abortState`. -/
def abortK1 : Kernel := ((writeall 2 (abortKs 1) 6 bytesHi).getD (abortState.k, 0)).1

/-- The path `/b`. -/
def pathB : List Nat := [47, 98]

/-- The state reached from program start by a write-only and a read-only open of `/a`
(entry 0), then a write-only and a read-only open of `/b` (entry 1). -/
def isoBase : State :=
  (mux_open (mux_open (mux_open (mux_open emptyState pathA (fiWr 0)).1 pathA (fiRd 0)).1
    pathB (fiWr 0)).1 pathB (fiRd 0)).1

/-- The state `isoBase` after `hi` was written to `/a`. -/
def isoState : State := ((mux_write 2 isoBase bytesHi (fiWr 0)).getD (isoBase, 0)).1

/-- The state `isoState` after two bytes were written to `/b`. -/
def isoAfter : State := ((mux_write 2 isoState pathZ (fiWr 1)).getD (isoState, 0)).1

/-- A path of exactly 31 characters: `/` followed by 30 times `x`. -/
def path31 : List Nat := 47 :: List.replicate 30 120

/-- A path of exactly 32 characters: `/` followed by 31 times `x`. -/
def path32 : List Nat := 47 :: List.replicate 31 120

/-- The state after 8 read-only opens of `/a` from program start and a ninth one, which
fails because every reader slot is claimed. -/
def leakOpened : State := (mux_open (eightReaders false) pathA (fiRd 0)).1

/-- The state `leakOpened` after the release of the 8 read handles `56, 48, ..., 0` that the
first 8 opens yielded. -/
def leakState : State :=
  [56, 48, 40, 32, 24, 16, 8, 0].foldl (fun s h => (mux_release s (fiRd h)).1) leakOpened

/-- The path `/c`. -/
def pathC : List Nat := [47, 99]

/-- The path `/d`. -/
def pathD : List Nat := [47, 100]

/-- The scenario of 9 read-only opens of `/a` from program start: the final state and the 9
records filled in by `mux_open`. -/
def nineOpens : State × List fuse_file_info := openReaders pathA (fiRd 0) 9 emptyState

/-- The state after `nineOpens` and the release of each of its 9 records, in the order of the
opens. -/
def nineReleased : State := nineOpens.2.foldl (fun s fi => (mux_release s fi).1) nineOpens.1

/-- A path of 24 characters: `/` followed by 23 times `q`. -/
def path24 : List Nat := 47 :: List.replicate 23 113

/-- A path of 31 characters that begins with the 24 characters of `path24`: they are followed
by 7 times `r`. -/
def path24r : List Nat := path24 ++ List.replicate 7 114

/-- The state reached from program start by 8 read-only opens of `path24` (entry 0),
write-only opens of `/b`, `/c` and `/d` (entries 1 to 3) and two write-only opens of
`path24r` (entry 4). -/
def dupBase : State :=
  (mux_open (mux_open (mux_open (mux_open (mux_open
    ((fun s => (mux_open s path24 (fiRd 0)).1)^[8] emptyState)
    pathB (fiWr 0)).1 pathC (fiWr 0)).1 pathD (fiWr 0)).1 path24r (fiWr 0)).1
    path24r (fiWr 0)).1

/-- The ninth read-only open of `path24`, from `dupBase`: the state, the record filled in and
the value returned. -/
def dupOpen : State × fuse_file_info × Int := mux_open dupBase path24 (fiRd 0)

/-- The state after `dupOpen` and the release of the record that it filled in. -/
def dupState : State := (mux_release dupOpen.1 dupOpen.2.1).1

end Mux

namespace Mux

/-! ## Basic facts: loops, strings, arrays -/

theorem scan_ge (p : Nat → Bool) (n i : Nat) : i ≤ scan p n i := by
  induction n generalizing i with
  | zero => simp [scan]
  | succ n ih =>
    unfold scan
    split
    · exact Nat.le_refl i
    · exact Nat.le_trans (Nat.le_succ i) (ih (i + 1))

theorem scan_le (p : Nat → Bool) (n i : Nat) : scan p n i ≤ i + n := by
  induction n generalizing i with
  | zero => simp [scan]
  | succ n ih =>
    unfold scan
    split
    · omega
    · have := ih (i + 1); omega

theorem scan_hit (p : Nat → Bool) (n i : Nat) (h : scan p n i < i + n) :
    p (scan p n i) = true := by
  induction n generalizing i with
  | zero => simp [scan] at h
  | succ n ih =>
    unfold scan at h ⊢
    split
    · assumption
    · rename_i hp
      simp only [hp] at h
      apply ih
      simp only [Bool.false_eq_true, if_false] at h
      omega

theorem scan_before (p : Nat → Bool) (n i j : Nat) (hij : i ≤ j) (hj : j < scan p n i) :
    p j = false := by
  induction n generalizing i with
  | zero => simp [scan] at hj; omega
  | succ n ih =>
    unfold scan at hj
    split at hj
    · omega
    · rename_i hp
      by_cases hji : j = i
      · subst hji; simpa using hp
      · exact ih (i + 1) (by omega) hj

theorem scan_first (p : Nat → Bool) (n i j : Nat) (hij : i ≤ j) (hjn : j < i + n)
    (hp : p j = true) (hbefore : ∀ k, i ≤ k → k < j → p k = false) : scan p n i = j := by
  induction n generalizing i with
  | zero => omega
  | succ n ih =>
    unfold scan
    by_cases hji : j = i
    · subst hji; simp [hp]
    · have hpi : p i = false := hbefore i (Nat.le_refl i) (by omega)
      simp only [hpi, Bool.false_eq_true, if_false]
      exact ih (i + 1) (by omega) (by omega) (fun k hk hkj => hbefore k (by omega) hkj)

theorem scan_none (p : Nat → Bool) (n i : Nat)
    (h : ∀ k, i ≤ k → k < i + n → p k = false) : scan p n i = i + n := by
  induction n generalizing i with
  | zero => simp [scan]
  | succ n ih =>
    unfold scan
    have hpi : p i = false := h i (Nat.le_refl i) (by omega)
    simp only [hpi, Bool.false_eq_true, if_false]
    rw [ih (i + 1) (fun k hk hkn => h k (by omega) (by omega))]
    omega

theorem scan_congr (p q : Nat → Bool) (n i : Nat)
    (h : ∀ k, i ≤ k → k < i + n → p k = q k) : scan p n i = scan q n i := by
  induction n generalizing i with
  | zero => simp [scan]
  | succ n ih =>
    unfold scan
    rw [h i (Nat.le_refl i) (by omega), ih (i + 1) (fun k hk hkn => h k (by omega) (by omega))]

theorem cstr_all_ne (l : List Nat) : ∀ c ∈ cstr l, c ≠ 0 := by
  intro c hc
  have := List.mem_takeWhile_imp hc
  simpa using this

theorem cstr_eq_nil_iff (l : List Nat) : cstr l = [] ↔ l.headD 0 = 0 := by
  cases l with
  | nil => simp [cstr]
  | cons a t =>
    by_cases ha : a = 0
    · simp [cstr, List.takeWhile_cons, ha]
    · have hb : (a != 0) = true := by simpa using ha
      simp [cstr, List.takeWhile_cons, hb, ha]

theorem takeWhile_append_zero (a : List Nat) (h : ∀ c ∈ a, c ≠ 0) (n : Nat) :
    List.takeWhile (fun c => c != 0) (a ++ List.replicate (n + 1) 0) = a := by
  induction a with
  | nil => simp [List.replicate, List.takeWhile]
  | cons x t ih =>
    have hx : x ≠ 0 := h x (List.mem_cons_self x t)
    have ht : ∀ c ∈ t, c ≠ 0 := fun c hc => h c (List.mem_cons_of_mem x hc)
    have hb : (x != 0) = true := by simpa using hx
    rw [List.cons_append, List.takeWhile_cons, hb, if_pos rfl, ih ht]

theorem cstr_strncpy (P : List Nat) (n : Nat) (h : strlen P < n) :
    cstr (strncpy P n) = cstr P := by
  unfold strlen at h
  unfold strncpy
  rw [List.take_of_length_le (Nat.le_of_lt h)]
  obtain ⟨d, hd⟩ : ∃ d, n - (cstr P).length = d + 1 := ⟨n - (cstr P).length - 1, by omega⟩
  rw [hd]
  exact takeWhile_append_zero (cstr P) (cstr_all_ne P) d

theorem rd_lt {n : Nat} (a : Fin n → Int) (i : Nat) (h : i < n) : rd a i = a ⟨i, h⟩ := by
  simp [rd, h]

theorem pt_lt (s : State) (i : Nat) (h : i < Muxmax) : s.pt i = s.muxs ⟨i, h⟩ := by
  simp [State.pt, h]

theorem pt_fin (s : State) (i : Fin Muxmax) : s.pt i.val = s.muxs i := by
  simp [State.pt, i.isLt]

theorem pt_setPt (s : State) (i j : Nat) (p : muxpoint) :
    (s.setPt i p).pt j = if j = i ∧ j < Muxmax then p else s.pt j := by
  unfold State.pt State.setPt
  by_cases hj : j < Muxmax
  · by_cases hji : j = i
    · subst hji; simp [hj]
    · simp [hj, hji]
  · simp [hj]

theorem setPt_k (s : State) (i : Nat) (p : muxpoint) : (s.setPt i p).k = s.k := rfl

theorem setPt_out (s : State) (i : Nat) (p : muxpoint) (h : Muxmax ≤ i) : s.setPt i p = s := by
  unfold State.setPt
  have : (fun j : Fin Muxmax => if j.val = i then p else s.muxs j) = s.muxs := by
    funext j
    have := j.isLt
    have hne : j.val ≠ i := by omega
    simp [hne]
  rw [this]

theorem muxs_setPt (s : State) (i : Nat) (p : muxpoint) (j : Fin Muxmax) :
    (s.setPt i p).muxs j = if j.val = i then p else s.muxs j := rfl

theorem setPt_setPt (s : State) (i : Nat) (p q : muxpoint) :
    (s.setPt i p).setPt i q = s.setPt i q := by
  unfold State.setPt
  congr 1
  funext j
  by_cases h : j.val = i <;> simp [h]

/-! ## The three outcomes of `muxfind` -/

theorem hitIdx_le (s : State) (P : List Nat) : hitIdx s P ≤ Muxmax := by
  have := scan_le (fun i => streq (s.pt i).path P) Muxmax 0
  simpa [hitIdx] using this

theorem freeIdx_le (s : State) : freeIdx s ≤ Muxmax := by
  have := scan_le (fun i => (s.pt i).path.headD 0 == 0) Muxmax 0
  simpa [freeIdx] using this

theorem muxfind_found (s : State) (P : List Nat) (h : hitIdx s P < Muxmax) :
    muxfind s P =
      (s.setPt (hitIdx s P) { s.pt (hitIdx s P) with c := (s.pt (hitIdx s P)).c + 1 },
       ((hitIdx s P : Nat) : Int)) := by
  have hne : hitIdx s P ≠ Muxmax := Nat.ne_of_lt h
  simp only [muxfind, muxfind_index, hne, if_false, false_and]

theorem muxfind_claim (s : State) (P : List Nat) (h : hitIdx s P = Muxmax)
    (hf : freeIdx s < Muxmax) :
    muxfind s P =
      (s.setPt (freeIdx s)
        { s.pt (freeIdx s) with path := strncpy P Pathmax, c := (s.pt (freeIdx s)).c + 1 },
       ((freeIdx s : Nat) : Int)) := by
  have hne : freeIdx s ≠ Muxmax := Nat.ne_of_lt hf
  simp only [muxfind, muxfind_index, h, if_true, true_and, if_pos hf, if_neg hne,
    setPt_setPt, pt_setPt, and_self]

theorem muxfind_full (s : State) (P : List Nat) (h : hitIdx s P = Muxmax)
    (hf : freeIdx s = Muxmax) : muxfind s P = (s, -ENOMEM) := by
  simp only [muxfind, muxfind_index, h, hf, if_true, lt_irrefl, and_false, if_false]
  rw [setPt_out s Muxmax _ (Nat.le_refl _)]

theorem toU64_natCast (n : Nat) (h : n < 2 ^ 64) : toU64 (n : Int) = n := by
  unfold toU64
  have h2 : ((n : Int)) % (2 : Int) ^ 64 = (n : Int) :=
    Int.emod_eq_of_lt (Int.natCast_nonneg n) (by exact_mod_cast h)
  rw [h2]
  exact Int.toNat_natCast n

theorem length_strncpy (P : List Nat) (n : Nat) : (strncpy P n).length = n := by
  unfold strncpy
  simp only [List.length_append, List.length_take, List.length_replicate]
  omega

theorem headD_set_zero (l : List Nat) : (l.set 0 0).headD 0 = 0 := by
  cases l <;> simp [List.set]

theorem streq_iff (a b : List Nat) : streq a b = true ↔ cstr a = cstr b := by
  simp [streq]

theorem streq_false_iff (a b : List Nat) : streq a b = false ↔ cstr a ≠ cstr b := by
  simp [streq]

theorem hitIdx_eq_max (s : State) (P : List Nat)
    (h : ∀ i : Fin Muxmax, cstr (s.muxs i).path ≠ cstr P) : hitIdx s P = Muxmax := by
  unfold hitIdx
  have := scan_none (fun i => streq (s.pt i).path P) Muxmax 0 (by
    intro k _ hk
    have hk2 : k < Muxmax := by omega
    simp only [pt_lt s k hk2]
    exact (streq_false_iff _ _).2 (h ⟨k, hk2⟩))
  simpa using this

theorem freeIdx_eq_max (s : State)
    (h : ∀ i : Fin Muxmax, (s.muxs i).path.headD 0 ≠ 0) : freeIdx s = Muxmax := by
  unfold freeIdx
  have := scan_none (fun i => (s.pt i).path.headD 0 == 0) Muxmax 0 (by
    intro k _ hk
    have hk2 : k < Muxmax := by omega
    simp only [pt_lt s k hk2]
    simpa using h ⟨k, hk2⟩)
  simpa using this

theorem freeIdx_lt (s : State) (h : ∃ i : Fin Muxmax, (s.muxs i).path.headD 0 = 0) :
    freeIdx s < Muxmax := by
  rcases Nat.lt_or_ge (freeIdx s) Muxmax with hlt | hge
  · exact hlt
  · exfalso
    obtain ⟨i, hi⟩ := h
    have hb := scan_before (fun i => (s.pt i).path.headD 0 == 0) Muxmax 0 i.val
      (Nat.zero_le _) (by
        have : i.val < Muxmax := i.isLt
        unfold freeIdx at hge
        omega)
    simp only [pt_fin, beq_eq_false_iff_ne, ne_eq] at hb
    exact hb hi

theorem freeIdx_free (s : State) (h : freeIdx s < Muxmax) :
    (s.pt (freeIdx s)).path.headD 0 = 0 := by
  have := scan_hit (fun i => (s.pt i).path.headD 0 == 0) Muxmax 0 (by
    unfold freeIdx at h; omega)
  simpa [freeIdx] using this

theorem hitIdx_hit (s : State) (P : List Nat) (h : hitIdx s P < Muxmax) :
    cstr (s.pt (hitIdx s P)).path = cstr P := by
  have := scan_hit (fun i => streq (s.pt i).path P) Muxmax 0 (by
    unfold hitIdx at h; omega)
  exact (streq_iff _ _).1 this

/-- After a successful `muxfind`, the first loop finds the returned entry. -/
theorem hitIdx_after (s : State) (P : List Nat) (hlen : strlen P ≤ Pathmax - 1)
    (hok : muxfind_index s P < Muxmax) :
    hitIdx (muxfind s P).1 P = muxfind_index s P := by
  rcases Nat.lt_or_ge (hitIdx s P) Muxmax with hlt | hge
  · have hne : hitIdx s P ≠ Muxmax := Nat.ne_of_lt hlt
    rw [muxfind_found s P hlt]
    simp only [muxfind_index, if_neg hne]
    show scan _ Muxmax 0 = hitIdx s P
    have hc := scan_congr
      (fun i => streq ((s.setPt (hitIdx s P)
        { s.pt (hitIdx s P) with c := (s.pt (hitIdx s P)).c + 1 }).pt i).path P)
      (fun i => streq (s.pt i).path P) Muxmax 0 (by
        intro k _ _
        simp only [pt_setPt]
        split
        · rename_i hk; rw [hk.1]
        · rfl)
    rw [hc]
    rfl
  · have heq : hitIdx s P = Muxmax := Nat.le_antisymm (hitIdx_le s P) hge
    have hj : muxfind_index s P = freeIdx s := by simp [muxfind_index, heq]
    rw [hj] at hok ⊢
    rw [muxfind_claim s P heq hok]
    show scan _ Muxmax 0 = freeIdx s
    apply scan_first
    · exact Nat.zero_le _
    · omega
    · simp only [pt_setPt, hok, and_self, if_true]
      apply (streq_iff _ _).2
      exact cstr_strncpy P Pathmax (by have hP : Pathmax = 32 := rfl; omega)
    · intro k _ hk
      have hkne : k ≠ freeIdx s := Nat.ne_of_lt hk
      simp only [pt_setPt, hkne, false_and, if_false]
      exact scan_before (fun i => streq (s.pt i).path P) Muxmax 0 k (Nat.zero_le _) (by
        unfold hitIdx at heq; omega)

theorem muxfind_ret (s : State) (P : List Nat) :
    (muxfind s P).2 = if muxfind_index s P = Muxmax then -ENOMEM else (muxfind_index s P : Int) :=
  rfl

theorem muxfind_index_le (s : State) (P : List Nat) : muxfind_index s P ≤ Muxmax := by
  unfold muxfind_index
  split
  · exact freeIdx_le s
  · exact hitIdx_le s P

/-! ## Claims -/

/-- C5: for every slot index `i < 8` and mux index `m < 8`, the read handle `i*8+m` built by
`mux_openr`, once stored in `fi->fh`, decodes through `fh % 8` and `fh / 8` (as in `mux_read`
and `mux_release`) back to `m` and `i`; the handle is below 64, and two such pairs with the
same handle are equal. -/
theorem read_handle_roundtrip (i m : Nat) (hi : i < Readmax) (hm : m < Muxmax) :
    fhMux (toU64 (rhandle i m)) = m ∧ fhSlot (toU64 (rhandle i m)) = i ∧
      toU64 (rhandle i m) < 64 ∧
      ∀ i2 m2 : Nat, i2 < Readmax → m2 < Muxmax → rhandle i2 m2 = rhandle i m →
        i2 = i ∧ m2 = m := by
  simp only [Muxmax, Readmax] at hi hm
  have hcast : rhandle i m = ((i * 8 + m : Nat) : Int) := by
    simp [rhandle, Muxmax]
  have hu : toU64 (rhandle i m) = i * 8 + m := by
    rw [hcast]
    exact toU64_natCast _ (by omega)
  rw [hu]
  refine ⟨?_, ?_, ?_, ?_⟩
  · simp only [fhMux, Muxmax]; omega
  · simp only [fhSlot, Muxmax]; omega
  · omega
  · intro i2 m2 hi2 hm2 h
    simp only [rhandle, Muxmax, Readmax, Nat.cast_ofNat] at h hi2 hm2
    omega

/-- Instance of C5 at slot 7 of mux point 7, the largest read handle. -/
theorem read_handle_roundtrip_witness :
    fhMux (toU64 (rhandle 7 7)) = 7 ∧ fhSlot (toU64 (rhandle 7 7)) = 7 ∧
      toU64 (rhandle 7 7) < 64 ∧
      ∀ i2 m2 : Nat, i2 < Readmax → m2 < Muxmax → rhandle i2 m2 = rhandle 7 7 →
        i2 = 7 ∧ m2 = 7 :=
  read_handle_roundtrip 7 7 (by decide) (by decide)

/-- C3: for every state and every path `P` of at most 31 characters, if `muxfind(P)` returns
an index `i` (a non-negative value), then `muxfind(P)` applied again to the resulting state
returns the same `i`. -/
theorem muxfind_same_index (s : State) (P : List Nat) (i : Int)
    (hlen : strlen P ≤ Pathmax - 1) (hret : (muxfind s P).2 = i) (hidx : 0 ≤ i) :
    (muxfind (muxfind s P).1 P).2 = i := by
  have hle := muxfind_index_le s P
  have hlt : muxfind_index s P < Muxmax := by
    rcases Nat.lt_or_ge (muxfind_index s P) Muxmax with h | h
    · exact h
    · exfalso
      have heq : muxfind_index s P = Muxmax := Nat.le_antisymm hle h
      rw [muxfind_ret, if_pos heq] at hret
      have : (-ENOMEM : Int) < 0 := by decide
      omega
  have hne : muxfind_index s P ≠ Muxmax := Nat.ne_of_lt hlt
  rw [muxfind_ret, if_neg hne] at hret
  have hafter := hitIdx_after s P hlen hlt
  have hfound := muxfind_found (muxfind s P).1 P (by rw [hafter]; exact hlt)
  rw [hfound, hafter]
  exact hret

/-- C6: for every state in which all 8 entries hold non-empty paths and none of them equals
`P`, `muxfind(P)` returns `-ENOMEM` and leaves the registry (path, refcount and slots of
all 8 entries) and the kernel unchanged. -/
theorem muxfind_exhausted (s : State) (P : List Nat)
    (hfull : ∀ i : Fin Muxmax, (s.muxs i).path.headD 0 ≠ 0)
    (hnone : ∀ i : Fin Muxmax, cstr (s.muxs i).path ≠ cstr P) :
    (muxfind s P).2 = -ENOMEM ∧ (muxfind s P).1 = s := by
  rw [muxfind_full s P (hitIdx_eq_max s P hnone) (freeIdx_eq_max s hfull)]
  exact ⟨rfl, rfl⟩

/-- Instance of C3: `/a` looked up twice from the initial registry gives entry 0 twice. -/
theorem muxfind_same_index_witness :
    (muxfind (muxfind emptyState pathA).1 pathA).2 = 0 :=
  muxfind_same_index emptyState pathA 0 (by decide) (by decide) (by decide)

/-- Instance of C6: `/z` on the registry holding `/a` to `/h`. -/
theorem muxfind_exhausted_witness :
    (muxfind fullState pathZ).2 = -ENOMEM ∧ (muxfind fullState pathZ).1 = fullState :=
  muxfind_exhausted fullState pathZ (by decide) (by decide)

theorem fhMux_lt (m : Nat) (h : m < Muxmax) : fhMux m = m := by
  simp only [fhMux]; exact Nat.mod_eq_of_lt h

theorem fh_decode (i m : Nat) (hm : m < Muxmax) :
    fhMux (i * Muxmax + m) = m ∧ fhSlot (i * Muxmax + m) = i := by
  simp only [fhMux, fhSlot, Muxmax] at hm ⊢
  omega

theorem mux_release_notrd (s : State) (fi : fuse_file_info) (h : fi.flags &&& 3 ≠ O_RDONLY) :
    (mux_release s fi).1 =
      if (s.pt (fhMux fi.fh)).c - 1 = 0 ∧ fhMux fi.fh < Muxmax then
        s.setPt (fhMux fi.fh)
          { s.pt (fhMux fi.fh) with
            c := (s.pt (fhMux fi.fh)).c - 1, path := (s.pt (fhMux fi.fh)).path.set 0 0 }
      else s.setPt (fhMux fi.fh) { s.pt (fhMux fi.fh) with c := (s.pt (fhMux fi.fh)).c - 1 } := by
  have hm : fhMux fi.fh < Muxmax := Nat.mod_lt _ (by decide)
  simp only [mux_release, release_slot, release_ref, if_neg h, pt_setPt, hm, and_self, if_true,
    and_true, setPt_setPt]

/-- C4: for every state in which each entry has refcount 0 exactly when its path is empty,
and every path `P` that no entry holds while some entry is free, `muxfind(P)` followed by
`mux_release` of the returned write handle gives back a registry in which the entry used
is free again (refcount 0, empty path, as before the call, with its slots untouched), every
other entry is unchanged, and the kernel is unchanged. -/
theorem resolve_release_roundtrip (s : State) (P : List Nat) (fi : fuse_file_info)
    (hinv : ∀ i : Fin Muxmax, (s.muxs i).c = 0 ↔ (s.muxs i).path.headD 0 = 0)
    (habs : ∀ i : Fin Muxmax, cstr (s.muxs i).path ≠ cstr P)
    (hfree : ∃ i : Fin Muxmax, (s.muxs i).path.headD 0 = 0)
    (hfl : fi.flags &&& 3 = O_WRONLY) (hfh : fi.fh = toU64 (muxfind s P).2) :
    ∃ i : Fin Muxmax, (muxfind s P).2 = (i.val : Int) ∧
      ((s.muxs i).c = 0 ∧ cstr (s.muxs i).path = []) ∧
      (((mux_release (muxfind s P).1 fi).1.muxs i).c = 0 ∧
        cstr ((mux_release (muxfind s P).1 fi).1.muxs i).path = []) ∧
      ((mux_release (muxfind s P).1 fi).1.muxs i).rh = (s.muxs i).rh ∧
      ((mux_release (muxfind s P).1 fi).1.muxs i).wh = (s.muxs i).wh ∧
      (∀ j : Fin Muxmax, j ≠ i → (mux_release (muxfind s P).1 fi).1.muxs j = s.muxs j) ∧
      (mux_release (muxfind s P).1 fi).1.k = s.k := by
  have hj := freeIdx_lt s hfree
  have hhit := hitIdx_eq_max s P habs
  have hfr := freeIdx_free s hj
  rw [pt_lt s _ hj] at hfr
  have hc := (hinv ⟨freeIdx s, hj⟩).2 hfr
  have hnotrd : fi.flags &&& 3 ≠ O_RDONLY := by rw [hfl]; decide
  rw [muxfind_claim s P hhit hj] at hfh ⊢
  simp only at hfh
  rw [toU64_natCast _ (by have hM : Muxmax = 8 := rfl; omega)] at hfh
  have hm : fhMux fi.fh = freeIdx s := by rw [hfh]; exact fhMux_lt _ hj
  refine ⟨⟨freeIdx s, hj⟩, rfl, ⟨hc, (cstr_eq_nil_iff _).2 hfr⟩, ?_⟩
  rw [mux_release_notrd _ fi hnotrd, hm]
  simp only [pt_setPt, hj, and_self, if_true, pt_lt s _ hj, hc, zero_add, sub_self,
    setPt_setPt, muxs_setPt, setPt_k]
  refine ⟨⟨trivial, ?_⟩, trivial, trivial, ?_, trivial⟩
  · exact (cstr_eq_nil_iff _).2 (headD_set_zero _)
  · intro j hji
    have : j.val ≠ freeIdx s := fun h => hji (Fin.ext h)
    simp [this]

/-- Instance of C4: `/a` resolved from the initial registry and released at once. -/
theorem resolve_release_roundtrip_witness :
    ∃ i : Fin Muxmax, (muxfind emptyState pathA).2 = (i.val : Int) ∧
      ((emptyState.muxs i).c = 0 ∧ cstr (emptyState.muxs i).path = []) ∧
      (((mux_release (muxfind emptyState pathA).1 (fiWr 0)).1.muxs i).c = 0 ∧
        cstr ((mux_release (muxfind emptyState pathA).1 (fiWr 0)).1.muxs i).path = []) ∧
      ((mux_release (muxfind emptyState pathA).1 (fiWr 0)).1.muxs i).rh
        = (emptyState.muxs i).rh ∧
      ((mux_release (muxfind emptyState pathA).1 (fiWr 0)).1.muxs i).wh
        = (emptyState.muxs i).wh ∧
      (∀ j : Fin Muxmax, j ≠ i →
        (mux_release (muxfind emptyState pathA).1 (fiWr 0)).1.muxs j = emptyState.muxs j) ∧
      (mux_release (muxfind emptyState pathA).1 (fiWr 0)).1.k = emptyState.k :=
  resolve_release_roundtrip emptyState pathA (fiWr 0) (by decide) (by decide) (by decide)
    (by decide) (by decide)

/-! ## `muxfind` and `mux_openr`: what they leave behind -/

theorem muxfind_ret_of_lt (s : State) (P : List Nat) (h : muxfind_index s P < Muxmax) :
    (muxfind s P).2 = (muxfind_index s P : Int) := by
  rw [muxfind_ret, if_neg (Nat.ne_of_lt h)]

theorem muxfind_k (s : State) (P : List Nat) : (muxfind s P).1.k = s.k := by
  simp only [muxfind]
  split <;> rfl

theorem muxfind_wh (s : State) (P : List Nat) (j : Fin Muxmax) :
    ((muxfind s P).1.muxs j).wh = (s.muxs j).wh := by
  simp only [muxfind, muxs_setPt]
  by_cases hj : j.val = muxfind_index s P
  · rw [if_pos hj, ← hj]
    split
    · simp only [pt_setPt, j.isLt, and_self, if_true, pt_fin, muxs_setPt]
    · simp only [pt_fin]
  · rw [if_neg hj]
    split
    · rw [muxs_setPt, if_neg hj]
    · rfl

theorem muxfind_rh (s : State) (P : List Nat) (j : Fin Muxmax) :
    ((muxfind s P).1.muxs j).rh = (s.muxs j).rh := by
  simp only [muxfind, muxs_setPt]
  by_cases hj : j.val = muxfind_index s P
  · rw [if_pos hj, ← hj]
    split
    · simp only [pt_setPt, j.isLt, and_self, if_true, pt_fin, muxs_setPt]
    · simp only [pt_fin]
  · rw [if_neg hj]
    split
    · rw [muxs_setPt, if_neg hj]
    · rfl

theorem muxfind_c (s : State) (P : List Nat) (h : muxfind_index s P < Muxmax) :
    ((muxfind s P).1.pt (muxfind_index s P)).c = (s.pt (muxfind_index s P)).c + 1 := by
  simp only [muxfind, pt_setPt, h, and_self, if_true]
  split
  · simp only [pt_setPt, h, and_self, if_true]
  · rfl

theorem pt_withk (s : State) (k : Kernel) (i : Nat) : ({ s with k := k } : State).pt i = s.pt i :=
  rfl

/-! ## Cells of `muxs` by address -/

theorem toInt32_of_lt (n : Nat) (h : n < 2 ^ 31) : toInt32 n = (n : Int) := by
  unfold toInt32
  have h1 : n % 2 ^ 32 = n := Nat.mod_eq_of_lt (by omega)
  rw [h1, if_pos h]

theorem slotIndex_of_lt (fh : Nat) (h : fhSlot fh < Readmax) :
    slotIndex fh = (fhSlot fh : Int) :=
  toInt32_of_lt _ (by simp only [Readmax] at h; omega)

theorem addr_rh (m i : Nat) (hm : m < Muxmax) (hi : i < Readmax) :
    (0 ≤ rhAddr m (i : Int) ∧ rhAddr m (i : Int) < (Muxmax : Int) * (Pointsize : Int)) ∧
      (rhAddr m (i : Int)).toNat / Pointsize = m ∧
      (rhAddr m (i : Int)).toNat % Pointsize = 32 + 4 * i := by
  simp only [rhAddr, Muxmax, Readmax, Pointsize, Nat.cast_ofNat] at hm hi ⊢
  omega

theorem addr_wh (m i : Nat) (hm : m < Muxmax) (hi : i < Readmax) :
    (0 ≤ whAddr m (i : Int) ∧ whAddr m (i : Int) < (Muxmax : Int) * (Pointsize : Int)) ∧
      (whAddr m (i : Int)).toNat / Pointsize = m ∧
      (whAddr m (i : Int)).toNat % Pointsize = 64 + 4 * i := by
  simp only [whAddr, Muxmax, Readmax, Pointsize, Nat.cast_ofNat] at hm hi ⊢
  omega

/-- Inside the array, `muxs[m].rh[i]` is read from the cell `i` of `rh`. -/
theorem loadAt_rh (s : State) (m i : Nat) (hm : m < Muxmax) (hi : i < Readmax) :
    s.loadAt (rhAddr m (i : Int)) = rd (s.pt m).rh i := by
  obtain ⟨h1, h2, h3⟩ := addr_rh m i hm hi
  have hi8 : i < 8 := hi
  have e1 : ¬ (32 + 4 * i < 32) := by omega
  have e2 : 32 + 4 * i < 64 := by omega
  have e3 : (32 + 4 * i - 32) / 4 = i := by omega
  simp only [State.loadAt, if_pos h1, h2, h3, if_neg e1, if_pos e2, e3]

/-- Inside the array, `muxs[m].wh[i]` is read from the cell `i` of `wh`. -/
theorem loadAt_wh (s : State) (m i : Nat) (hm : m < Muxmax) (hi : i < Readmax) :
    s.loadAt (whAddr m (i : Int)) = rd (s.pt m).wh i := by
  obtain ⟨h1, h2, h3⟩ := addr_wh m i hm hi
  have hi8 : i < 8 := hi
  have e1 : ¬ (64 + 4 * i < 32) := by omega
  have e2 : ¬ (64 + 4 * i < 64) := by omega
  have e3 : 64 + 4 * i < 96 := by omega
  have e4 : (64 + 4 * i - 64) / 4 = i := by omega
  simp only [State.loadAt, if_pos h1, h2, h3, if_neg e1, if_neg e2, if_pos e3, e4]

/-- Inside the array, a store to `muxs[m].rh[i]` changes the cell `i` of `rh`. -/
theorem storeAt_rh (s : State) (m i : Nat) (hm : m < Muxmax) (hi : i < Readmax) (v : Int) :
    s.storeAt (rhAddr m (i : Int)) v = s.setPt m { s.pt m with rh := wr (s.pt m).rh i v } := by
  obtain ⟨h1, h2, h3⟩ := addr_rh m i hm hi
  have hi8 : i < 8 := hi
  have e1 : ¬ (32 + 4 * i < 32) := by omega
  have e2 : 32 + 4 * i < 64 := by omega
  have e3 : (32 + 4 * i - 32) / 4 = i := by omega
  simp only [State.storeAt, if_pos h1, h2, h3, if_neg e1, if_pos e2, e3]

/-- Inside the array, a store to `muxs[m].wh[i]` changes the cell `i` of `wh`. -/
theorem storeAt_wh (s : State) (m i : Nat) (hm : m < Muxmax) (hi : i < Readmax) (v : Int) :
    s.storeAt (whAddr m (i : Int)) v = s.setPt m { s.pt m with wh := wr (s.pt m).wh i v } := by
  obtain ⟨h1, h2, h3⟩ := addr_wh m i hm hi
  have hi8 : i < 8 := hi
  have e1 : ¬ (64 + 4 * i < 32) := by omega
  have e2 : ¬ (64 + 4 * i < 64) := by omega
  have e3 : 64 + 4 * i < 96 := by omega
  have e4 : (64 + 4 * i - 64) / 4 = i := by omega
  simp only [State.storeAt, if_pos h1, h2, h3, if_neg e1, if_neg e2, if_pos e3, e4]

/-- Lines 89-95 of `mux_release` for a slot index inside the array. -/
theorem release_slot_of_lt (s : State) (fi : fuse_file_info) (hin : fhSlot fi.fh < Readmax) :
    release_slot s fi =
      if fi.flags &&& 3 = O_RDONLY then
        (({ s with k := (sys_close (sys_close s.k (rd (s.pt (fhMux fi.fh)).rh (fhSlot fi.fh)))
              (rd (s.pt (fhMux fi.fh)).wh (fhSlot fi.fh))) } : State).setPt (fhMux fi.fh)
            { s.pt (fhMux fi.fh) with wh := wr (s.pt (fhMux fi.fh)).wh (fhSlot fi.fh) 0 }).setPt
          (fhMux fi.fh)
          { s.pt (fhMux fi.fh) with
            wh := wr (s.pt (fhMux fi.fh)).wh (fhSlot fi.fh) 0
            rh := wr (s.pt (fhMux fi.fh)).rh (fhSlot fi.fh) 0 }
      else s := by
  have hm : fhMux fi.fh < Muxmax := Nat.mod_lt _ (by decide)
  simp only [release_slot, slotIndex_of_lt _ hin, loadAt_rh _ _ _ hm hin, loadAt_wh _ _ _ hm hin,
    storeAt_rh _ _ _ hm hin, storeAt_wh _ _ _ hm hin, pt_setPt, hm, and_self, if_true, pt_withk]

/-- The function `mux_read` for a slot index inside the array. -/
theorem mux_read_of_lt (s : State) (size : Nat) (fi : fuse_file_info)
    (hin : fhSlot fi.fh < Readmax) :
    mux_read s size fi =
      if (sys_read s.k (rd (s.pt (fhMux fi.fh)).rh (fhSlot fi.fh)) size).2.1 < 0 then
        ({ s with k := (sys_read s.k (rd (s.pt (fhMux fi.fh)).rh (fhSlot fi.fh)) size).1 },
          0 - (sys_read s.k (rd (s.pt (fhMux fi.fh)).rh (fhSlot fi.fh)) size).1.errno,
          (sys_read s.k (rd (s.pt (fhMux fi.fh)).rh (fhSlot fi.fh)) size).2.2)
      else
        ({ s with k := (sys_read s.k (rd (s.pt (fhMux fi.fh)).rh (fhSlot fi.fh)) size).1 },
          (sys_read s.k (rd (s.pt (fhMux fi.fh)).rh (fhSlot fi.fh)) size).2.1,
          (sys_read s.k (rd (s.pt (fhMux fi.fh)).rh (fhSlot fi.fh)) size).2.2) := by
  have hm : fhMux fi.fh < Muxmax := Nat.mod_lt _ (by decide)
  simp only [mux_read, slotIndex_of_lt _ hin, loadAt_rh _ _ _ hm hin]

theorem sys_pipe_fail (k : Kernel) (e : Errno) (h : k.pdec k.npipe = some e) :
    sys_pipe k = ({ k with npipe := k.npipe + 1, errno := e.val }, none) := by
  simp only [sys_pipe, h]

theorem sys_pipe_ok (k : Kernel) (h : k.pdec k.npipe = none) :
    sys_pipe k =
      ({ k with
          fdt := fun fd =>
            if fd = k.nextfd then some (false, k.npipe)
            else if fd = k.nextfd + 1 then some (true, k.npipe)
            else k.fdt fd
          buf := fun q => if q = k.npipe then [] else k.buf q
          nextfd := k.nextfd + 2
          npipe := k.npipe + 1 },
       some (k.nextfd, k.nextfd + 1)) := by
  simp only [sys_pipe, h]

/-- Index of the slot claimed by the compare-and-swap loop of `mux_openr` (`Readmax` when
every slot is taken). -/
theorem slot_scan_full (wh : Fin Readmax → Int) (h : ∀ i : Fin Readmax, wh i ≠ 0) :
    scan (fun i => rd wh i == 0) Readmax 0 = Readmax := by
  have := scan_none (fun i => rd wh i == 0) Readmax 0 (by
    intro k _ hk
    have hk2 : k < Readmax := by omega
    simp only [rd_lt wh k hk2]
    simpa using h ⟨k, hk2⟩)
  simpa using this

theorem mux_openr_pipe_fail (s : State) (P : List Nat) (e : Errno)
    (h : muxfind_index s P < Muxmax) (hp : s.k.pdec s.k.npipe = some e) :
    mux_openr s P =
      ({ (muxfind s P).1 with k := { s.k with npipe := s.k.npipe + 1, errno := e.val } },
       0 - (e.val : Int)) := by
  have hr := muxfind_ret_of_lt s P h
  have hnot : ¬ ((muxfind_index s P : Int) < 0) := by omega
  simp only [mux_openr, hr, if_neg hnot, muxfind_k, sys_pipe_fail s.k e hp]

theorem mux_openr_slots_full (s : State) (P : List Nat)
    (h : muxfind_index s P < Muxmax) (hp : s.k.pdec s.k.npipe = none)
    (hall : ∀ i : Fin Readmax, (s.pt (muxfind_index s P)).wh i ≠ 0) :
    (mux_openr s P).2 = -ENOMEM ∧ (mux_openr s P).1.muxs = (muxfind s P).1.muxs := by
  have hr := muxfind_ret_of_lt s P h
  have hnot : ¬ ((muxfind_index s P : Int) < 0) := by omega
  have hwh : ((muxfind s P).1.pt (muxfind_index s P)).wh = (s.pt (muxfind_index s P)).wh := by
    rw [pt_lt _ _ h, pt_lt _ _ h]; exact muxfind_wh s P _
  have hscan := slot_scan_full _ hall
  simp only [mux_openr, hr, if_neg hnot, muxfind_k, sys_pipe_ok s.k hp, Int.toNat_natCast,
    pt_withk, hwh, hscan, if_true, and_self]

/-- C7, as the code has it: when the mux point found for `P` has all 8 reader slots claimed,
`mux_openr(P)` fails: with `-ENOMEM` if the pipe could be created, with the error of `pipe`
otherwise; in both cases the write end and the read end stored in every slot of every mux
point are unchanged. -/
theorem openr_exhausted (s : State) (P : List Nat) (hreg : muxfind_index s P < Muxmax)
    (hall : ∀ i : Fin Readmax, (s.pt (muxfind_index s P)).wh i ≠ 0) :
    (mux_openr s P).2 =
        (match s.k.pdec s.k.npipe with
          | none => -ENOMEM
          | some e => -(e.val : Int)) ∧
      (mux_openr s P).2 < 0 ∧
      ∀ m : Fin Muxmax, ((mux_openr s P).1.muxs m).wh = (s.muxs m).wh ∧
        ((mux_openr s P).1.muxs m).rh = (s.muxs m).rh := by
  cases hp : s.k.pdec s.k.npipe with
  | none =>
    obtain ⟨h1, h2⟩ := mux_openr_slots_full s P hreg hp hall
    refine ⟨h1, by rw [h1]; decide, ?_⟩
    intro m
    rw [h2]
    exact ⟨muxfind_wh s P m, muxfind_rh s P m⟩
  | some e =>
    rw [mux_openr_pipe_fail s P e hreg hp]
    have := e.pos
    refine ⟨by simp, by simp only; omega, ?_⟩
    intro m
    exact ⟨muxfind_wh s P m, muxfind_rh s P m⟩

set_option maxRecDepth 100000 in
/-- Instance of C7 (amended): a ninth read-only open of `/a` when `pipe` succeeds. -/
theorem openr_exhausted_witness :
    (mux_openr (eightReaders false) pathA).2 =
        (match (eightReaders false).k.pdec (eightReaders false).k.npipe with
          | none => -ENOMEM
          | some e => -(e.val : Int)) ∧
      (mux_openr (eightReaders false) pathA).2 < 0 ∧
      ∀ m : Fin Muxmax,
        ((mux_openr (eightReaders false) pathA).1.muxs m).wh = ((eightReaders false).muxs m).wh ∧
        ((mux_openr (eightReaders false) pathA).1.muxs m).rh = ((eightReaders false).muxs m).rh :=
  openr_exhausted (eightReaders false) pathA (by decide) (by decide)

set_option maxRecDepth 100000 in
/-- C7 as stated fails: in the state reached by 8 read-only opens of `/a`, where all 8 slots
of the point are claimed, a ninth `mux_openr` whose `pipe` call fails with `EMFILE` returns
`-EMFILE` (-24), not `-ENOMEM` (-12). -/
theorem openr_exhausted_not_enomem :
    (∀ i : Fin Readmax, ((eightReaders true).pt (hitIdx (eightReaders true) pathA)).wh i ≠ 0) ∧
      hitIdx (eightReaders true) pathA < Muxmax ∧
      (mux_openr (eightReaders true) pathA).2 = -24 ∧
      (mux_openr (eightReaders true) pathA).2 ≠ -ENOMEM := by
  decide

/-- Slot index found by the compare-and-swap loop of `mux_openr` on mux point `m`. -/
theorem mux_openr_pipe_ok (s : State) (P : List Nat)
    (h : muxfind_index s P < Muxmax) (hp : s.k.pdec s.k.npipe = none) :
    mux_openr s P =
      if scan (fun i => rd (s.pt (muxfind_index s P)).wh i == 0) Readmax 0 = Readmax then
        ({ (muxfind s P).1 with
            k := sys_close (sys_close (sys_pipe s.k).1 s.k.nextfd) (s.k.nextfd + 1) }, -ENOMEM)
      else
        (({ (muxfind s P).1 with k := (sys_pipe s.k).1 } : State).setPt (muxfind_index s P)
          { (muxfind s P).1.pt (muxfind_index s P) with
            wh := wr ((muxfind s P).1.pt (muxfind_index s P)).wh
              (scan (fun i => rd (s.pt (muxfind_index s P)).wh i == 0) Readmax 0)
              (s.k.nextfd + 1)
            rh := wr ((muxfind s P).1.pt (muxfind_index s P)).rh
              (scan (fun i => rd (s.pt (muxfind_index s P)).wh i == 0) Readmax 0)
              s.k.nextfd },
         rhandle (scan (fun i => rd (s.pt (muxfind_index s P)).wh i == 0) Readmax 0)
           (muxfind_index s P)) := by
  have hr := muxfind_ret_of_lt s P h
  have hnot : ¬ ((muxfind_index s P : Int) < 0) := by omega
  have hwh : ((muxfind s P).1.pt (muxfind_index s P)).wh = (s.pt (muxfind_index s P)).wh := by
    rw [pt_lt _ _ h, pt_lt _ _ h]; exact muxfind_wh s P _
  simp only [mux_openr, hr, if_neg hnot, muxfind_k, sys_pipe_ok s.k hp, Int.toNat_natCast,
    pt_withk, hwh, setPt_setPt, pt_setPt, h, and_self, if_true]

theorem rhandle_nonneg (i m : Nat) : 0 ≤ rhandle i m := by
  unfold rhandle
  positivity

/-- C8, as the code has it: whenever `mux_openr(P)` fails after `muxfind` resolved `P`
(all reader slots claimed, or `pipe` failed), the refcount of the mux point of `P` is one
more than before the call: the increment taken by `muxfind` is not undone. -/
theorem openr_failure_keeps_refcount (s : State) (P : List Nat)
    (hres : muxfind_index s P < Muxmax) (hfail : (mux_openr s P).2 < 0) :
    ((mux_openr s P).1.pt (muxfind_index s P)).c = (s.pt (muxfind_index s P)).c + 1 := by
  cases hp : s.k.pdec s.k.npipe with
  | some e =>
    rw [mux_openr_pipe_fail s P e hres hp, pt_withk]
    exact muxfind_c s P hres
  | none =>
    rw [mux_openr_pipe_ok s P hres hp] at hfail ⊢
    split
    · rw [pt_withk]
      exact muxfind_c s P hres
    · rename_i hne
      rw [if_neg hne] at hfail
      have := rhandle_nonneg
        (scan (fun i => rd (s.pt (muxfind_index s P)).wh i == 0) Readmax 0) (muxfind_index s P)
      simp only at hfail
      omega

set_option maxRecDepth 100000 in
/-- The failing input of C8: after 8 read-only opens of `/a` the refcount of its point is 8;
a ninth `mux_openr` fails with `-ENOMEM` and leaves the refcount at 9. -/
theorem openr_failure_keeps_refcount_witness :
    ((eightReaders false).pt 0).c = 8 ∧ (mux_openr (eightReaders false) pathA).2 = -ENOMEM ∧
      ((mux_openr (eightReaders false) pathA).1.pt 0).c = 8 + 1 :=
  ⟨by decide, by decide,
    openr_failure_keeps_refcount (eightReaders false) pathA (by decide) (by decide)⟩

/-- C9, as the code has it: for a path of at most 31 characters opened read-only or
write-only, `mux_open` returns 0 whatever the core open returned, and stores the value
returned by the core (an error code included) into `fi->fh`, converted to `uint64_t`. -/
theorem mux_open_returns_zero (s : State) (P : List Nat) (fi : fuse_file_info)
    (hlen : strlen P ≤ Pathmax - 1)
    (hmode : fi.flags &&& 3 = O_RDONLY ∨ fi.flags &&& 3 = O_WRONLY) :
    (mux_open s P fi).2.2 = 0 ∧
      (mux_open s P fi).2.1.fh =
        toU64 (if fi.flags &&& 3 = O_RDONLY then (mux_openr s P).2 else (muxfind s P).2) := by
  have hnot : ¬ (strlen P > Pathmax - 1) := by omega
  rcases hmode with h | h
  · simp only [mux_open, if_neg hnot, h, if_true, and_self]
  · have h0 : ¬ (O_WRONLY = O_RDONLY) := by decide
    simp only [mux_open, if_neg hnot, h, if_neg h0, if_true, and_self]

/-- The failing input of C9: a write-only open of `/z` on the registry that holds `/a` to
`/h`: `muxfind` returns `-ENOMEM`, yet `mux_open` returns 0 and `fi->fh` is
`2^64 - 12`, which is no handle. -/
theorem mux_open_returns_zero_witness :
    (muxfind fullState pathZ).2 = -ENOMEM ∧
      (mux_open fullState pathZ (fiWr 0)).2.2 = 0 ∧
      (mux_open fullState pathZ (fiWr 0)).2.1.fh = 2 ^ 64 - 12 := by
  have h := mux_open_returns_zero fullState pathZ (fiWr 0) (by decide) (Or.inr (by decide))
  refine ⟨by decide, h.1, ?_⟩
  rw [h.2]
  decide

/-! ## `write`, `writeall` and the broadcast loop -/

theorem logBytes_append (a b : List (Int × List Nat)) :
    logBytes (a ++ b) = logBytes a ++ logBytes b := by
  induction a with
  | nil => rfl
  | cons e l ih => simp [logBytes, ih]

theorem Wrote.refl (k : Kernel) (fd : Int) : Wrote k k fd [] := by
  refine ⟨rfl, rfl, rfl, rfl, rfl, ⟨[], by simp, by simp, rfl⟩, ?_⟩
  intro q
  split <;> simp

theorem Wrote.trans {k k1 k2 : Kernel} {fd : Int} {x y : List Nat}
    (h1 : Wrote k k1 fd x) (h2 : Wrote k1 k2 fd y) : Wrote k k2 fd (x ++ y) := by
  obtain ⟨a1, a2, a3, a4, a5, ⟨seg1, l1, o1, b1⟩, q1⟩ := h1
  obtain ⟨c1, c2, c3, c4, c5, ⟨seg2, l2, o2, b2⟩, q2⟩ := h2
  refine ⟨c1.trans a1, c2.trans a2, c3.trans a3, c4.trans a4, c5.trans a5, ⟨seg1 ++ seg2, ?_, ?_, ?_⟩, ?_⟩
  · rw [l2, l1, List.append_assoc]
  · intro e he
    rcases List.mem_append.1 he with h | h
    · exact o1 e h
    · exact o2 e h
  · rw [logBytes_append, b1, b2]
  · intro q
    rw [q2 q, a1, q1 q]
    split
    · rw [List.append_assoc]
    · rfl

/-- A `write` call that fails leaves descriptors, pipes and history alone. -/
theorem Wrote.of_errno (k : Kernel) (fd : Int) (n : Nat) (e : Int) :
    Wrote k { k with nwrite := n, errno := e } fd [] := by
  refine ⟨rfl, rfl, rfl, rfl, rfl, ⟨[], by simp, by simp, rfl⟩, ?_⟩
  intro q
  split <;> simp

/-- The three outcomes of one `write` call. -/
theorem sys_write_cases (k : Kernel) (fd : Int) (data : List Nat) :
    (∃ e : Int, 0 < e ∧ (sys_write k fd data).2 = -1 ∧ (sys_write k fd data).1.errno = e ∧
        Wrote k (sys_write k fd data).1 fd []) ∨
      (∃ n : Nat, (sys_write k fd data).2 = ((data.take n).length : Int) ∧
        Wrote k (sys_write k fd data).1 fd (data.take n)) := by
  unfold sys_write
  cases hfd : k.fdt fd with
  | none =>
    left
    exact ⟨EBADF, by decide, rfl, rfl, Wrote.of_errno k fd k.nwrite EBADF⟩
  | some v =>
    obtain ⟨w, q⟩ := v
    cases w with
    | false =>
      left
      exact ⟨EBADF, by decide, rfl, rfl, Wrote.of_errno k fd k.nwrite EBADF⟩
    | true =>
      cases hd : k.wdec k.nwrite with
      | fail e =>
        left
        exact ⟨(e.val : Int), by exact_mod_cast e.pos, rfl, rfl,
          Wrote.of_errno k fd (k.nwrite + 1) e.val⟩
      | accept n =>
        right
        refine ⟨n, rfl, rfl, rfl, rfl, rfl, rfl, ⟨[(fd, data.take n)], rfl, ?_, ?_⟩, ?_⟩
        · intro e he
          simp only [List.mem_singleton] at he
          rw [he]
        · simp [logBytes]
        · intro q2
          simp only [hfd, Option.some.injEq, Prod.mk.injEq, true_and]
          by_cases hq : q2 = q
          · subst hq; simp
          · have hq2 : ¬ q = q2 := fun h => hq h.symm
            simp [hq, hq2]

theorem take_length_take (l : List Nat) (n : Nat) : l.take (l.take n).length = l.take n := by
  rw [List.length_take]
  rcases Nat.le_total n l.length with h | h
  · rw [Nat.min_eq_left h]
  · rw [Nat.min_eq_right h, List.take_of_length_le (Nat.le_refl _), List.take_of_length_le h]

/-- What a run of `writeall` that ends has done: either it returns the size and all the
bytes from offset `o` on were written, or it returns `-errno` of the failing `write` call and
only a proper initial part was written. -/
theorem writeall_from_spec (fd : Int) (buf : List Nat) :
    ∀ (fuel : Nat) (k : Kernel) (o : Nat) (k1 : Kernel) (r : Int), o ≤ buf.length →
      writeall_from fuel k fd buf o = some (k1, r) →
      (r = (buf.length : Int) ∧ Wrote k k1 fd (buf.drop o)) ∨
        (r < 0 ∧ r = -k1.errno ∧
          ∃ d rest, rest ≠ [] ∧ d ++ rest = buf.drop o ∧ Wrote k k1 fd d) := by
  intro fuel
  induction fuel with
  | zero => intro k o k1 r _ h; simp [writeall_from] at h
  | succ fuel ih =>
    intro k o k1 r ho h
    unfold writeall_from at h
    by_cases hlt : o < buf.length
    · rw [if_pos hlt] at h
      simp only at h
      rcases sys_write_cases k fd (buf.drop o) with ⟨e, hpos, hret, herr, hw⟩ | ⟨n, hret, hw⟩
      · have hneg : (sys_write k fd (buf.drop o)).2 < 0 := by rw [hret]; decide
        rw [if_pos hneg] at h
        simp only [Option.some.injEq, Prod.mk.injEq] at h
        obtain ⟨hk, hr⟩ := h
        right
        subst hk
        refine ⟨by omega, by omega, [], buf.drop o, ?_, by simp, hw⟩
        intro hnil
        have := List.length_drop o buf
        rw [hnil] at this
        simp at this
        omega
      · have hnn : ¬ (sys_write k fd (buf.drop o)).2 < 0 := by rw [hret]; omega
        rw [if_neg hnn, hret, Int.toNat_natCast] at h
        have hlen : ((buf.drop o).take n).length ≤ buf.length - o := by
          rw [List.length_take, List.length_drop]; omega
        have hsplit : buf.drop o = (buf.drop o).take n
            ++ buf.drop (o + ((buf.drop o).take n).length) := by
          have h1 := (List.take_append_drop ((buf.drop o).take n).length (buf.drop o)).symm
          rw [take_length_take, List.drop_drop] at h1
          exact h1
        rcases ih _ _ k1 r (by omega) h with ⟨hr, hw2⟩ | ⟨hr, hr2, d, rest, hrest, hd, hw2⟩
        · left
          refine ⟨hr, ?_⟩
          rw [hsplit]
          exact Wrote.trans hw hw2
        · right
          refine ⟨hr, hr2, (buf.drop o).take n ++ d, rest, hrest, ?_, Wrote.trans hw hw2⟩
          rw [List.append_assoc, hd]
          exact hsplit.symm
    · rw [if_neg hlt] at h
      simp only [Option.some.injEq, Prod.mk.injEq] at h
      obtain ⟨hk, hr⟩ := h
      have ho2 : o = buf.length := by omega
      left
      subst hk
      refine ⟨by rw [← hr, ho2], ?_⟩
      rw [ho2, List.drop_length]
      exact Wrote.refl k fd

theorem writeall_spec (fuel : Nat) (k k1 : Kernel) (fd : Int) (buf : List Nat) (r : Int)
    (h : writeall fuel k fd buf = some (k1, r)) :
    (r = (buf.length : Int) ∧ Wrote k k1 fd buf) ∨
      (r < 0 ∧ r = -k1.errno ∧ ∃ d rest, rest ≠ [] ∧ d ++ rest = buf ∧ Wrote k k1 fd d) := by
  have := writeall_from_spec fd buf fuel k 0 k1 r (Nat.zero_le _) h
  simpa using this

/-- A failing run of the broadcast loop over the slots `i .. i+n-1`, started in kernel state
`k`: there is a first failing slot `j`; `ks t` is the kernel state before slot `t`. -/
theorem mux_write_loop_fail (fuel : Nat) (wh : Fin Readmax → Int) (b : List Nat) :
    ∀ (n i : Nat) (k k1 : Kernel) (r : Int),
      mux_write_loop fuel wh b n i k = some (k1, r) → r < 0 →
      ∃ j, i ≤ j ∧ j < i + n ∧ rd wh j ≠ 0 ∧ ∃ ks : Nat → Kernel, ks i = k ∧
        (∀ t, i ≤ t → t < j → rd wh t = 0 → ks (t + 1) = ks t) ∧
        (∀ t, i ≤ t → t < j → rd wh t ≠ 0 →
          writeall fuel (ks t) (rd wh t) b = some (ks (t + 1), (b.length : Int)) ∧
            Wrote (ks t) (ks (t + 1)) (rd wh t) b) ∧
        writeall fuel (ks j) (rd wh j) b = some (k1, r) ∧ r = -k1.errno ∧
        (∃ d rest, rest ≠ [] ∧ d ++ rest = b ∧ Wrote (ks j) k1 (rd wh j) d) ∧
        k1.fdt = k.fdt ∧
        ∀ q, (∀ t, i ≤ t → t ≤ j → k.fdt (rd wh t) ≠ some (true, q)) → k1.buf q = k.buf q := by
  intro n
  induction n with
  | zero =>
    intro i k k1 r h hr
    simp only [mux_write_loop, Option.some.injEq, Prod.mk.injEq] at h
    omega
  | succ n ih =>
    intro i k k1 r h hr
    unfold mux_write_loop at h
    by_cases hc : rd wh i ≠ 0
    · rw [if_pos hc] at h
      cases hw : writeall fuel k (rd wh i) b with
      | none => rw [hw] at h; simp at h
      | some r1 =>
        obtain ⟨ka, ra⟩ := r1
        rw [hw] at h
        simp only at h
        by_cases hneg : ra < 0
        · rw [if_pos hneg] at h
          simp only [Option.some.injEq, Prod.mk.injEq] at h
          obtain ⟨hk, hra⟩ := h
          subst hk; subst hra
          rcases writeall_spec fuel k ka (rd wh i) b ra hw with ⟨he, _⟩ | ⟨_, herr, d, rest, h1, h2, h3⟩
          · omega
          · refine ⟨i, Nat.le_refl i, by omega, hc, fun _ => k, rfl, ?_, ?_, hw, herr,
              ⟨d, rest, h1, h2, h3⟩, h3.1, ?_⟩
            · intro t h1 h2; omega
            · intro t h1 h2; omega
            · intro q hq
              rw [h3.2.2.2.2.2.2 q, if_neg (hq i (Nat.le_refl i) (Nat.le_refl i))]
        · rw [if_neg hneg] at h
          rcases writeall_spec fuel k ka (rd wh i) b ra hw with ⟨he, hwr⟩ | ⟨hlt, _⟩
          · obtain ⟨j, hij, hjn, hcj, ks, hks, hz, hnz, hfail, herr, hpart, hfdt, hbuf⟩ :=
              ih (i + 1) ka k1 r h hr
            refine ⟨j, by omega, by omega, hcj, fun t => if t = i then k else ks t, ?_, ?_, ?_,
              ?_, herr, ?_, ?_, ?_⟩
            · simp
            · intro t h1 h2 h3
              have hti : t ≠ i := fun h => hc (h ▸ h3)
              have hti1 : t + 1 ≠ i := by omega
              simp only [hti, hti1, if_false]
              exact hz t (by omega) h2 h3
            · intro t h1 h2 h3
              have hti1 : t + 1 ≠ i := by omega
              by_cases hti : t = i
              · subst hti
                simp only [hti1, if_false, if_true, hks]
                rw [← he]
                exact ⟨hw, hwr⟩
              · simp only [hti, hti1, if_false]
                exact hnz t (by omega) h2 h3
            · have hji : j ≠ i := by omega
              simp only [hji, if_false]
              exact hfail
            · have hji : j ≠ i := by omega
              simp only [hji, if_false]
              exact hpart
            · rw [hfdt, hwr.1]
            · intro q hq
              rw [hbuf q (fun t h1 h2 => by rw [hwr.1]; exact hq t (by omega) h2),
                hwr.2.2.2.2.2.2 q, if_neg (hq i (Nat.le_refl i) (by omega))]
          · exact absurd hlt hneg
    · rw [if_neg hc] at h
      have hc0 : rd wh i = 0 := by
        by_contra hne; exact hc hne
      obtain ⟨j, hij, hjn, hcj, ks, hks, hz, hnz, hfail, herr, hpart, hfdt, hbuf⟩ :=
        ih (i + 1) k k1 r h hr
      refine ⟨j, by omega, by omega, hcj, fun t => if t = i then k else ks t, ?_, ?_, ?_,
        ?_, herr, ?_, hfdt, ?_⟩
      · simp
      · intro t h1 h2 h3
        have hti1 : t + 1 ≠ i := by omega
        by_cases hti : t = i
        · subst hti
          simp only [hti1, if_false, if_true, hks]
        · simp only [hti, hti1, if_false]
          exact hz t (by omega) h2 h3
      · intro t h1 h2 h3
        have hti : t ≠ i := fun h => h3 (h ▸ hc0)
        have hti1 : t + 1 ≠ i := by omega
        simp only [hti, hti1, if_false]
        exact hnz t (by omega) h2 h3
      · have hji : j ≠ i := by omega
        simp only [hji, if_false]
        exact hfail
      · have hji : j ≠ i := by omega
        simp only [hji, if_false]
        exact hpart
      · intro q hq
        exact hbuf q (fun t h1 h2 => hq t (by omega) h2)

/-- Every failing run of `mux_write` is an abort at some slot. -/
theorem mux_write_fail_aborts (fuel : Nat) (s s1 : State) (b : List Nat) (fi : fuse_file_info)
    (r : Int) (hrun : mux_write fuel s b fi = some (s1, r)) (hfail : r < 0) :
    s1 = { s with k := s1.k } ∧
      ∃ j ks, AbortsAt fuel (s.pt fi.fh).wh b s.k ks j s1.k r := by
  unfold mux_write at hrun
  cases hl : mux_write_loop fuel (s.pt fi.fh).wh b Readmax 0 s.k with
  | none => rw [hl] at hrun; simp at hrun
  | some v =>
    obtain ⟨k1, r1⟩ := v
    rw [hl] at hrun
    simp only [Option.map_some', Option.some.injEq, Prod.mk.injEq] at hrun
    obtain ⟨hs, hr⟩ := hrun
    subst hs; subst hr
    obtain ⟨j, _, hjn, hcj, ks, hks, hz, hnz, hf, _, _, _, _⟩ :=
      mux_write_loop_fail fuel (s.pt fi.fh).wh b Readmax 0 s.k k1 r1 hl hfail
    refine ⟨rfl, j, ks, by omega, hcj, hks, ?_, ?_, hf, hfail⟩
    · intro t ht h0; exact hz t (Nat.zero_le _) ht h0
    · intro t ht h0; exact (hnz t (Nat.zero_le _) ht h0).1

theorem mux_write_loop_of_chain (fuel : Nat) (wh : Fin Readmax → Int) (b : List Nat)
    (ks : Nat → Kernel) (j : Nat) (k1 : Kernel) (r : Int) (hcj : rd wh j ≠ 0)
    (hf : writeall fuel (ks j) (rd wh j) b = some (k1, r)) (hr : r < 0) :
    ∀ (n i : Nat), i ≤ j → j < i + n →
      (∀ t, i ≤ t → t < j → rd wh t = 0 → ks (t + 1) = ks t) →
      (∀ t, i ≤ t → t < j → rd wh t ≠ 0 →
        writeall fuel (ks t) (rd wh t) b = some (ks (t + 1), (b.length : Int))) →
      mux_write_loop fuel wh b n i (ks i) = some (k1, r) := by
  intro n
  induction n with
  | zero => intro i h1 h2; omega
  | succ n ih =>
    intro i hij hjn hz hnz
    unfold mux_write_loop
    by_cases hji : i = j
    · subst hji
      rw [if_pos hcj, hf]
      simp only [if_pos hr]
    · have hlt : i < j := by omega
      have hrec := ih (i + 1) (by omega) (by omega)
        (fun t h1 h2 h3 => hz t (by omega) h2 h3) (fun t h1 h2 h3 => hnz t (by omega) h2 h3)
      by_cases hc : rd wh i ≠ 0
      · rw [if_pos hc, hnz i (Nat.le_refl i) hlt hc]
        have hnn : ¬ ((b.length : Int) < 0) := by omega
        simp only [if_neg hnn]
        exact hrec
      · have hc0 : rd wh i = 0 := by
          by_contra hne; exact hc hne
        rw [if_neg hc, ← hz i (Nat.le_refl i) hlt hc0]
        exact hrec

theorem chain_frame (fuel : Nat) (wh : Fin Readmax → Int) (b : List Nat) (ks : Nat → Kernel)
    (j : Nat)
    (hz : ∀ t, t < j → rd wh t = 0 → ks (t + 1) = ks t)
    (hnz : ∀ t, t < j → rd wh t ≠ 0 →
      writeall fuel (ks t) (rd wh t) b = some (ks (t + 1), (b.length : Int))) :
    ∀ t, t ≤ j → (ks t).fdt = (ks 0).fdt ∧
      ∀ q, (∀ u, u < t → (ks 0).fdt (rd wh u) ≠ some (true, q)) → (ks t).buf q = (ks 0).buf q := by
  intro t
  induction t with
  | zero => intro _; exact ⟨rfl, fun _ _ => rfl⟩
  | succ t ih =>
    intro ht
    obtain ⟨hfdt, hbuf⟩ := ih (by omega)
    by_cases hc : rd wh t ≠ 0
    · rcases writeall_spec fuel _ _ _ b _ (hnz t (by omega) hc) with ⟨_, hw⟩ | ⟨hlt, _⟩
      · refine ⟨hw.1.trans hfdt, ?_⟩
        intro q hq
        rw [hw.2.2.2.2.2.2 q, hfdt, if_neg (hq t (Nat.lt_succ_self t))]
        exact hbuf q (fun u hu => hq u (by omega))
      · omega
    · have hc0 : rd wh t = 0 := by
        by_contra hne; exact hc hne
      rw [hz t (by omega) hc0]
      exact ⟨hfdt, fun q hq => hbuf q (fun u hu => hq u (by omega))⟩

/-- C10: if, in the broadcast of `b` over the slots of the mux point of a write handle, the
full write fails first on the claimed slot `j` (the full writes on the claimed slots below `j`
having succeeded), then `mux_write` returns the error of that slot, which is `-errno` of the
failing `write` call; every claimed slot below `j` has been written all of `b`; slot `j` has
been written a proper initial part of `b`; the run ends in the kernel state left by the
failed write, so that the queue of every pipe that is not behind a slot of index at most `j`
holds what it held before: no slot above `j` is written to. -/
theorem mux_write_aborts (fuel : Nat) (s : State) (b : List Nat) (fi : fuse_file_info)
    (ks : Nat → Kernel) (j : Nat) (k1 : Kernel) (r : Int)
    (h : AbortsAt fuel (s.pt fi.fh).wh b s.k ks j k1 r) :
    mux_write fuel s b fi = some ({ s with k := k1 }, r) ∧ r = -k1.errno ∧
      (∀ t, t < j → rd (s.pt fi.fh).wh t ≠ 0 →
        Wrote (ks t) (ks (t + 1)) (rd (s.pt fi.fh).wh t) b) ∧
      (∃ d rest, rest ≠ [] ∧ d ++ rest = b ∧ Wrote (ks j) k1 (rd (s.pt fi.fh).wh j) d) ∧
      k1.fdt = s.k.fdt ∧
      ∀ q, (∀ t, t ≤ j → s.k.fdt (rd (s.pt fi.fh).wh t) ≠ some (true, q)) →
        k1.buf q = s.k.buf q := by
  obtain ⟨hj, hcj, h0, hz, hnz, hf, hr⟩ := h
  have hloop := mux_write_loop_of_chain fuel (s.pt fi.fh).wh b ks j k1 r hcj hf hr Readmax 0
    (Nat.zero_le _) (by omega) (fun t _ h2 h3 => hz t h2 h3) (fun t _ h2 h3 => hnz t h2 h3)
  rw [h0] at hloop
  obtain ⟨hfdt, hbuf⟩ := chain_frame fuel (s.pt fi.fh).wh b ks j hz hnz j (Nat.le_refl j)
  rw [h0] at hfdt hbuf
  rcases writeall_spec fuel _ _ _ b _ hf with ⟨he, _⟩ | ⟨_, herr, d, rest, hrest, hd, hw⟩
  · omega
  · refine ⟨?_, herr, ?_, ⟨d, rest, hrest, hd, hw⟩, hw.1.trans hfdt, ?_⟩
    · simp only [mux_write, hloop, Option.map_some']
    · intro t ht hc
      rcases writeall_spec fuel _ _ _ b _ (hnz t ht hc) with ⟨_, hw2⟩ | ⟨hlt, _⟩
      · exact hw2
      · omega
    · intro q hq
      rw [hw.2.2.2.2.2.2 q, hfdt, if_neg (hq j (Nat.le_refl j))]
      exact hbuf q (fun u hu => hq u (by omega))

set_option maxRecDepth 100000 in
/-- Instance of C10: one writer and three readers on `/a`; the write on slot 1 fails with
`EPIPE`: `mux_write` returns -32, the pipe of slot 0 holds `hi`, those of slots 1 and 2 hold
nothing. -/
theorem mux_write_aborts_witness :
    mux_write 2 abortState bytesHi (fiWr 0) = some ({ abortState with k := abortK1 }, -32) ∧
      abortK1.buf 0 = bytesHi ∧ abortK1.buf 1 = [] ∧ abortK1.buf 2 = [] :=
  ⟨(mux_write_aborts 2 abortState bytesHi (fiWr 0) abortKs 1 abortK1 (-32)
      ⟨by decide, by decide, rfl,
        fun t ht h0 => by
          have : t = 0 := by omega
          subst this
          exact absurd h0 (by decide),
        fun t ht _ => by
          have : t = 0 := by omega
          subst this
          rfl,
        by rfl, by decide⟩).1,
    by decide, by decide, by decide⟩

/-! ## Fan-out -/

theorem hitIdx_congr (s t : State) (P : List Nat)
    (h : ∀ i, i < Muxmax → (t.pt i).path = (s.pt i).path) : hitIdx t P = hitIdx s P := by
  unfold hitIdx
  apply scan_congr
  intro k _ hk
  simp only [h k (by omega)]

theorem mux_open_wr (s : State) (P : List Nat) (fi : fuse_file_info)
    (hlen : strlen P ≤ Pathmax - 1) (hfl : fi.flags &&& 3 = O_WRONLY) :
    mux_open s P fi =
      ((muxfind s P).1, { fi with direct_io := 1, nonseekable := 1, fh := toU64 (muxfind s P).2 },
        0) := by
  have hnot : ¬ (strlen P > Pathmax - 1) := by omega
  have h0 : ¬ (O_WRONLY = O_RDONLY) := by decide
  simp only [mux_open, if_neg hnot, hfl, if_neg h0, if_true]

theorem mux_open_rd (s : State) (P : List Nat) (fi : fuse_file_info)
    (hlen : strlen P ≤ Pathmax - 1) (hfl : fi.flags &&& 3 = O_RDONLY) :
    mux_open s P fi =
      ((mux_openr s P).1,
        { fi with direct_io := 1, nonseekable := 1, fh := toU64 (mux_openr s P).2 }, 0) := by
  have hnot : ¬ (strlen P > Pathmax - 1) := by omega
  simp only [mux_open, if_neg hnot, hfl, if_true]

theorem muxfind_index_of_hit (s : State) (P : List Nat) (h : hitIdx s P < Muxmax) :
    muxfind_index s P = hitIdx s P := by
  simp [muxfind_index, Nat.ne_of_lt h]

theorem fed_mono (m n : Nat) (f0 : Int) (p0 : Nat) (b : List Nat) (lo hi : Nat) (t : State)
    (h : FedState m n f0 p0 b lo t) (hle : lo ≤ hi) : FedState m n f0 p0 b hi t := by
  obtain ⟨hm, hn, hs⟩ := h
  exact ⟨hm, hn, fun i hi2 => ⟨(hs i hi2).1, (hs i hi2).2.1, fun h => (hs i hi2).2.2 (by omega)⟩⟩

theorem writeall_wrote (fuel : Nat) (k k1 : Kernel) (fd : Int) (buf : List Nat) (r : Int)
    (h : writeall fuel k fd buf = some (k1, r)) : ∃ d, Wrote k k1 fd d := by
  rcases writeall_spec fuel k k1 fd buf r h with ⟨_, hw⟩ | ⟨_, _, d, _, _, _, hw⟩
  · exact ⟨buf, hw⟩
  · exact ⟨d, hw⟩

/-- Whatever the outcome, the broadcast loop creates and closes nothing, and it changes only
queues of pipes that are behind claimed slots of the mux point. -/
theorem mux_write_loop_frame (fuel : Nat) (wh : Fin Readmax → Int) (b : List Nat) :
    ∀ (n i : Nat) (k k1 : Kernel) (r : Int),
      mux_write_loop fuel wh b n i k = some (k1, r) →
      k1.fdt = k.fdt ∧ k1.nextfd = k.nextfd ∧ k1.npipe = k.npipe ∧
        ∀ q, (∀ t, rd wh t ≠ 0 → k.fdt (rd wh t) ≠ some (true, q)) → k1.buf q = k.buf q := by
  intro n
  induction n with
  | zero =>
    intro i k k1 r h
    simp only [mux_write_loop, Option.some.injEq, Prod.mk.injEq] at h
    rw [← h.1]
    exact ⟨rfl, rfl, rfl, fun _ _ => rfl⟩
  | succ n ih =>
    intro i k k1 r h
    unfold mux_write_loop at h
    by_cases hc : rd wh i ≠ 0
    · rw [if_pos hc] at h
      cases hw : writeall fuel k (rd wh i) b with
      | none => rw [hw] at h; simp at h
      | some v =>
        obtain ⟨ka, ra⟩ := v
        rw [hw] at h
        simp only at h
        obtain ⟨d, hd⟩ := writeall_wrote fuel k ka (rd wh i) b ra hw
        have hbuf : ∀ q, (∀ t, rd wh t ≠ 0 → k.fdt (rd wh t) ≠ some (true, q)) →
            ka.buf q = k.buf q := by
          intro q hq
          rw [hd.2.2.2.2.2.2 q, if_neg (hq i hc)]
        by_cases hneg : ra < 0
        · rw [if_pos hneg] at h
          simp only [Option.some.injEq, Prod.mk.injEq] at h
          rw [← h.1]
          exact ⟨hd.1, hd.2.1, hd.2.2.1, hbuf⟩
        · rw [if_neg hneg] at h
          obtain ⟨h1, h2, h3, h4⟩ := ih (i + 1) ka k1 r h
          refine ⟨h1.trans hd.1, h2.trans hd.2.1, h3.trans hd.2.2.1, ?_⟩
          intro q hq
          rw [h4 q (fun t ht => by rw [hd.1]; exact hq t ht), hbuf q hq]
    · rw [if_neg hc] at h
      exact ih (i + 1) k k1 r h

theorem mux_write_state (fuel : Nat) (s s1 : State) (b : List Nat) (fi : fuse_file_info)
    (r : Int) (h : mux_write fuel s b fi = some (s1, r)) :
    s1.muxs = s.muxs ∧
      mux_write_loop fuel (s.pt fi.fh).wh b Readmax 0 s.k = some (s1.k, r) := by
  unfold mux_write at h
  cases hl : mux_write_loop fuel (s.pt fi.fh).wh b Readmax 0 s.k with
  | none => rw [hl] at h; simp at h
  | some v =>
    rw [hl] at h
    simp only [Option.map_some', Option.some.injEq, Prod.mk.injEq] at h
    obtain ⟨hs, hr⟩ := h
    subst hs; subst hr
    exact ⟨rfl, rfl⟩

theorem mux_openr_unresolved (s : State) (P : List Nat) (h : muxfind_index s P = Muxmax) :
    mux_openr s P = ((muxfind s P).1, -ENOMEM) := by
  have hr : (muxfind s P).2 = -ENOMEM := by rw [muxfind_ret, if_pos h]
  have hneg : (-ENOMEM : Int) < 0 := by decide
  simp only [mux_openr, hr, if_pos hneg]

theorem release_ref_k (s : State) (m : Nat) : (release_ref s m).k = s.k := by
  simp only [release_ref]
  split <;> rfl

theorem release_slot_k (s : State) (fi : fuse_file_info) (hin : fhSlot fi.fh < Readmax) :
    (release_slot s fi).k =
      if fi.flags &&& 3 = O_RDONLY then
        sys_close (sys_close s.k (rd (s.pt (fhMux fi.fh)).rh (fhSlot fi.fh)))
          (rd (s.pt (fhMux fi.fh)).wh (fhSlot fi.fh))
      else s.k := by
  rw [release_slot_of_lt s fi hin]
  split <;> rfl

theorem release_slot_wh (s : State) (fi : fuse_file_info) (hin : fhSlot fi.fh < Readmax)
    (m2 : Fin Muxmax) :
    ((release_slot s fi).muxs m2).wh =
      if fi.flags &&& 3 = O_RDONLY ∧ m2.val = fhMux fi.fh then
        wr (s.muxs m2).wh (fhSlot fi.fh) 0
      else (s.muxs m2).wh := by
  rw [release_slot_of_lt s fi hin]
  by_cases hf : fi.flags &&& 3 = O_RDONLY
  · by_cases hm2 : m2.val = fhMux fi.fh
    · simp only [if_pos hf, ← hm2, muxs_setPt, if_true, pt_fin, hf, and_self]
    · simp only [if_pos hf, muxs_setPt, if_neg hm2, hm2, and_false, if_false]
  · simp only [if_neg hf, hf, false_and, if_false]

theorem release_slot_rh (s : State) (fi : fuse_file_info) (hin : fhSlot fi.fh < Readmax)
    (m2 : Fin Muxmax) :
    ((release_slot s fi).muxs m2).rh =
      if fi.flags &&& 3 = O_RDONLY ∧ m2.val = fhMux fi.fh then
        wr (s.muxs m2).rh (fhSlot fi.fh) 0
      else (s.muxs m2).rh := by
  rw [release_slot_of_lt s fi hin]
  by_cases hf : fi.flags &&& 3 = O_RDONLY
  · by_cases hm2 : m2.val = fhMux fi.fh
    · simp only [if_pos hf, ← hm2, muxs_setPt, if_true, pt_fin, hf, and_self]
    · simp only [if_pos hf, muxs_setPt, if_neg hm2, hm2, and_false, if_false]
  · simp only [if_neg hf, hf, false_and, if_false]

/-! ## One descriptor for each pipe end -/

/-- In every kernel state that system calls produce, each pipe end is open under one
descriptor at most, and the pipes named in the descriptor table have been created.  This
rests on `pipe` making a new pipe at each call, not on the descriptor numbers it hands
out. -/
theorem kernelRun_inv (k : Kernel) (h : KernelRun k) :
    OneDescriptorPerEnd k ∧ ∀ fd e q, k.fdt fd = some (e, q) → q < k.npipe := by
  induction h with
  | start pdec wdec =>
    refine ⟨?_, ?_⟩
    · intro x y e q hx
      simp [Kernel.init] at hx
    · intro fd e q hq
      simp [Kernel.init] at hq
  | piped k _ ih =>
    obtain ⟨hinj, hb⟩ := ih
    cases hp : k.pdec k.npipe with
    | some err =>
      rw [sys_pipe_fail k err hp]
      refine ⟨hinj, ?_⟩
      intro fd e q hq
      exact Nat.lt_succ_of_lt (hb fd e q hq)
    | none =>
      rw [sys_pipe_ok k hp]
      refine ⟨?_, ?_⟩
      · intro x y e q hx hy
        simp only at hx hy
        split at hx
        · rename_i hx1
          simp only [Option.some.injEq, Prod.mk.injEq] at hx
          split at hy
          · rename_i hy1
            exact hx1.trans hy1.symm
          · split at hy
            · simp only [Option.some.injEq, Prod.mk.injEq] at hy
              have := hx.1.trans hy.1.symm
              simp at this
            · have := hb y e q hy
              omega
        · split at hx
          · rename_i hx1
            simp only [Option.some.injEq, Prod.mk.injEq] at hx
            split at hy
            · simp only [Option.some.injEq, Prod.mk.injEq] at hy
              have := hx.1.trans hy.1.symm
              simp at this
            · split at hy
              · rename_i hy1
                exact hx1.trans hy1.symm
              · have := hb y e q hy
                omega
          · split at hy
            · simp only [Option.some.injEq, Prod.mk.injEq] at hy
              have := hb x e q hx
              omega
            · split at hy
              · simp only [Option.some.injEq, Prod.mk.injEq] at hy
                have := hb x e q hx
                omega
              · exact hinj x y e q hx hy
      · intro fd e q hq
        show q < k.npipe + 1
        simp only at hq
        split at hq
        · simp only [Option.some.injEq, Prod.mk.injEq] at hq
          omega
        · split at hq
          · simp only [Option.some.injEq, Prod.mk.injEq] at hq
            omega
          · exact Nat.lt_succ_of_lt (hb fd e q hq)
  | closed k fd _ ih =>
    obtain ⟨hinj, hb⟩ := ih
    have hsub : ∀ x v, (sys_close k fd).fdt x = some v → k.fdt x = some v := by
      intro x v hx
      simp only [sys_close] at hx
      split at hx
      · simp at hx
      · exact hx
    exact ⟨fun x y e q hx hy => hinj x y e q (hsub _ _ hx) (hsub _ _ hy),
      fun x e q hq => hb x e q (hsub _ _ hq)⟩
  | written k fd data _ ih =>
    have h1 : (sys_write k fd data).1.fdt = k.fdt ∧ (sys_write k fd data).1.npipe = k.npipe := by
      unfold sys_write
      split
      · split <;> exact ⟨rfl, rfl⟩
      · exact ⟨rfl, rfl⟩
    unfold OneDescriptorPerEnd
    rw [h1.1, h1.2]
    exact ih
  | readDone k fd size _ ih =>
    have h1 : (sys_read k fd size).1.fdt = k.fdt ∧ (sys_read k fd size).1.npipe = k.npipe := by
      unfold sys_read
      split <;> exact ⟨rfl, rfl⟩
    unfold OneDescriptorPerEnd
    rw [h1.1, h1.2]
    exact ih

/-- The kernel state after `mux_openr`: unchanged, or after the `pipe` call, or after the
`pipe` call and two `close` calls. -/
theorem mux_openr_k (s : State) (P : List Nat) :
    (mux_openr s P).1.k = s.k ∨ (mux_openr s P).1.k = (sys_pipe s.k).1 ∨
      ∃ a b, (mux_openr s P).1.k = sys_close (sys_close (sys_pipe s.k).1 a) b := by
  simp only [mux_openr, muxfind_k]
  split
  · left
    exact muxfind_k s P
  · split
    · rename_i k1 heq
      right; left
      exact (congrArg Prod.fst heq).symm
    · rename_i k1 fd0 fd1 heq
      have hk : k1 = (sys_pipe s.k).1 := (congrArg Prod.fst heq).symm
      split
      · right; right
        exact ⟨fd0, fd1, by rw [hk]⟩
      · right; left
        simp only [setPt_k]
        exact hk

theorem kernelRun_open (s : State) (P : List Nat) (fi : fuse_file_info) (h : KernelRun s.k) :
    KernelRun (mux_open s P fi).1.k := by
  simp only [mux_open]
  split_ifs
  · exact h
  · rcases mux_openr_k s P with h1 | h1 | ⟨a, b, h1⟩
    · simp only [h1]; exact h
    · simp only [h1]; exact KernelRun.piped _ h
    · simp only [h1]; exact KernelRun.closed _ _ (KernelRun.closed _ _ (KernelRun.piped _ h))
  · simp only [muxfind_k]; exact h
  · exact h

theorem storeAt_k (s : State) (a v : Int) : (s.storeAt a v).k = s.k := by
  unfold State.storeAt
  split_ifs <;> rfl

theorem kernelRun_release (s : State) (fi : fuse_file_info) (h : KernelRun s.k) :
    KernelRun (mux_release s fi).1.k := by
  simp only [mux_release, release_ref_k, release_slot]
  split
  · simp only [storeAt_k]
    exact KernelRun.closed _ _ (KernelRun.closed _ _ h)
  · exact h

theorem kernelRun_read (s : State) (size : Nat) (fi : fuse_file_info) (h : KernelRun s.k) :
    KernelRun (mux_read s size fi).1.k := by
  simp only [mux_read]
  split <;> exact KernelRun.readDone _ _ _ h

theorem kernelRun_writeall_from (fd : Int) (buf : List Nat) :
    ∀ (fuel : Nat) (k : Kernel) (o : Nat) (x : Kernel × Int), KernelRun k →
      writeall_from fuel k fd buf o = some x → KernelRun x.1 := by
  intro fuel
  induction fuel with
  | zero =>
    intro k o x _ hx
    simp [writeall_from] at hx
  | succ fuel ih =>
    intro k o x hk hx
    unfold writeall_from at hx
    by_cases ho : o < buf.length
    · rw [if_pos ho] at hx
      simp only at hx
      by_cases hneg : (sys_write k fd (List.drop o buf)).2 < 0
      · rw [if_pos hneg] at hx
        simp only [Option.some.injEq] at hx
        rw [← hx]
        exact KernelRun.written _ _ _ hk
      · rw [if_neg hneg] at hx
        exact ih _ _ x (KernelRun.written _ _ _ hk) hx
    · rw [if_neg ho] at hx
      simp only [Option.some.injEq] at hx
      rw [← hx]
      exact hk

theorem kernelRun_write_loop (fuel : Nat) (wh : Fin Readmax → Int) (b : List Nat) :
    ∀ (n i : Nat) (k : Kernel) (x : Kernel × Int), KernelRun k →
      mux_write_loop fuel wh b n i k = some x → KernelRun x.1 := by
  intro n
  induction n with
  | zero =>
    intro i k x hk hx
    simp only [mux_write_loop, Option.some.injEq] at hx
    rw [← hx]
    exact hk
  | succ n ih =>
    intro i k x hk hx
    unfold mux_write_loop at hx
    by_cases hc : rd wh i ≠ 0
    · rw [if_pos hc] at hx
      cases hw : writeall fuel k (rd wh i) b with
      | none => rw [hw] at hx; simp at hx
      | some v =>
        rw [hw] at hx
        simp only at hx
        have hv : KernelRun v.1 := kernelRun_writeall_from _ _ fuel k 0 v hk hw
        by_cases hneg : v.2 < 0
        · rw [if_pos hneg] at hx
          simp only [Option.some.injEq] at hx
          rw [← hx]
          exact hv
        · rw [if_neg hneg] at hx
          exact ih _ _ x hv hx
    · rw [if_neg hc] at hx
      exact ih _ _ x hk hx

theorem kernelRun_write (fuel : Nat) (s s1 : State) (b : List Nat) (fi : fuse_file_info)
    (r : Int) (hrun : mux_write fuel s b fi = some (s1, r)) (h : KernelRun s.k) :
    KernelRun s1.k :=
  kernelRun_write_loop fuel _ b _ _ _ (s1.k, r) h (mux_write_state fuel s s1 b fi r hrun).2

/-! ## Isolation -/

theorem sys_read_congr (k k1 : Kernel) (fd : Int) (size : Nat) (hfdt : k1.fdt fd = k.fdt fd)
    (hbuf : ∀ q, k.fdt fd = some (false, q) → k1.buf q = k.buf q) :
    (sys_read k1 fd size).2 = (sys_read k fd size).2 ∧
      ((sys_read k fd size).2.1 < 0 →
        (sys_read k1 fd size).1.errno = (sys_read k fd size).1.errno) := by
  unfold sys_read
  rw [hfdt]
  cases hv : k.fdt fd with
  | none => exact ⟨rfl, fun _ => rfl⟩
  | some v =>
    obtain ⟨e, q⟩ := v
    cases e with
    | true => exact ⟨rfl, fun _ => rfl⟩
    | false =>
      simp only [hbuf q hv, true_and]
      intro hneg
      omega

/-- No claimed slot of another mux point holds a write end of the channel of a reader slot,
when the descriptors in distinct claimed slots are distinct and every pipe end is open under
one descriptor only. -/
theorem other_point_apart (s : State) (hdist : DistinctDescriptors s)
    (hends : OneDescriptorPerEnd s.k) (a : Fin Muxmax) (i : Fin Readmax) (q : Nat)
    (hslot : ReaderSlot s a i q) (b t : Nat) (hab : a.val ≠ b) (hc : rd (s.pt b).wh t ≠ 0) :
    s.k.fdt (rd (s.pt b).wh t) ≠ some (true, q) := by
  intro hw
  have hb : b < Muxmax := by
    by_contra hge
    simp only [State.pt, dif_neg hge, zeroPoint, rd] at hc
    split at hc <;> exact hc rfl
  have ht : t < Readmax := by
    by_contra hge
    simp only [rd, dif_neg hge] at hc
    exact hc rfl
  rw [pt_lt _ _ hb, rd_lt _ _ ht] at hc hw
  have heq := hends _ _ _ _ hw hslot.2.1
  have hne : ¬ ((⟨b, hb⟩ : Fin Muxmax) = a ∧ (⟨t, ht⟩ : Fin Readmax) = i) := by
    intro hh
    exact hab (congrArg Fin.val hh.1).symm
  exact (hdist ⟨b, hb⟩ a ⟨t, ht⟩ i hc hslot.1 hne).1 heq

/-- C2: take a state in which the descriptors stored in distinct claimed slots are distinct,
two different registry entries `a` and `b`, and a reader slot `i` of `a` with its channel `q`
(the slot is claimed and holds the two ends of pipe `q`).  A `mux_write` on the write handle
of `b`, whatever it returns, leaves the queue of `q` as it was, and a `mux_read` on the read
handle `i*8+a` returns after the write the value and the bytes it would have returned
before.  The kernel is one in which every pipe end is open under one descriptor only, as it
is after any sequence of system calls (`kernelRun_inv`). -/
theorem isolation (s s1 : State) (fuel : Nat) (buf : List Nat) (fiB fiA : fuse_file_info)
    (r : Int) (a b : Fin Muxmax) (i : Fin Readmax) (q size : Nat) (hab : a ≠ b)
    (hdist : DistinctDescriptors s) (hends : OneDescriptorPerEnd s.k)
    (hslot : ReaderSlot s a i q) (hB : fiB.fh = b.val) (hA : fiA.fh = i.val * Muxmax + a.val)
    (hrun : mux_write fuel s buf fiB = some (s1, r)) :
    s1.k.buf q = s.k.buf q ∧ (mux_read s1 size fiA).2 = (mux_read s size fiA).2 := by
  obtain ⟨hm, hl⟩ := mux_write_state fuel s s1 buf fiB r hrun
  obtain ⟨hfdt, _, _, hframe⟩ := mux_write_loop_frame fuel _ buf _ _ _ _ _ hl
  have hAB : a.val ≠ fiB.fh := by
    rw [hB]
    exact fun h => hab (Fin.ext h)
  have hbuf : s1.k.buf q = s.k.buf q :=
    hframe q (fun t hc => other_point_apart s hdist hends a i q hslot fiB.fh t hAB hc)
  refine ⟨hbuf, ?_⟩
  obtain ⟨hmux, hsl⟩ := fh_decode i.val a.val a.isLt
  rw [← hA] at hmux hsl
  have hin : fhSlot fiA.fh < Readmax := by rw [hsl]; exact i.isLt
  have hpt : s1.pt (fhMux fiA.fh) = s.pt (fhMux fiA.fh) := by
    simp only [State.pt, hm]
  have hfd : rd (s.pt (fhMux fiA.fh)).rh (fhSlot fiA.fh) = (s.muxs a).rh i := by
    rw [hmux, hsl, pt_fin, rd_lt _ _ i.isLt]
  obtain ⟨h1, h2⟩ := sys_read_congr s.k s1.k ((s.muxs a).rh i) size (by rw [hfdt])
    (fun q2 hq2 => by
      rw [hslot.2.2] at hq2
      simp only [Option.some.injEq, Prod.mk.injEq, true_and] at hq2
      rw [← hq2]
      exact hbuf)
  rw [mux_read_of_lt s1 size fiA hin, mux_read_of_lt s size fiA hin, hpt, hfd]
  by_cases hneg : (sys_read s.k ((s.muxs a).rh i) size).2.1 < 0
  · have hneg1 : (sys_read s1.k ((s.muxs a).rh i) size).2.1 < 0 := by rw [h1]; exact hneg
    rw [if_pos hneg, if_pos hneg1]
    simp only [h2 hneg, h1]
  · have hneg1 : ¬ (sys_read s1.k ((s.muxs a).rh i) size).2.1 < 0 := by rw [h1]; exact hneg
    rw [if_neg hneg, if_neg hneg1]
    simp only [h1]

set_option maxRecDepth 100000 in
set_option synthInstance.maxHeartbeats 400000 in
set_option synthInstance.maxSize 4096 in
/-- Instance of C2: `/a` at entry 0 holds `hi` for its reader (slot 0, pipe 0); after a write
to `/b` at entry 1 the reader of `/a` still reads `hi`, and the reader of `/b` reads what was
written to `/b`. -/
theorem isolation_witness :
    (isoAfter.k.buf 0 = isoState.k.buf 0 ∧
        (mux_read isoAfter 10 (fiRd 0)).2 = (mux_read isoState 10 (fiRd 0)).2) ∧
      (mux_read isoState 10 (fiRd 0)).2 = (2, bytesHi) ∧
      (mux_read isoAfter 10 (fiRd 1)).2 = (2, pathZ) :=
  ⟨isolation isoState isoAfter 2 pathZ (fiWr 1) (fiRd 0) 2 0 1 0 0 10 (by decide)
      (by unfold DistinctDescriptors; decide)
      (kernelRun_inv _
        (kernelRun_write 2 isoBase isoState bytesHi (fiWr 0) 2 (by rfl)
          (kernelRun_open _ pathB (fiRd 0) (kernelRun_open _ pathB (fiWr 0)
            (kernelRun_open _ pathA (fiRd 0) (kernelRun_open _ pathA (fiWr 0)
              (KernelRun.start _ _))))))).1
      ⟨by decide, by decide, by decide⟩ (by decide) (by decide) (by rfl),
    by decide, by decide⟩

/-! ## Effect of the operations on paths and refcounts -/

theorem muxfind_muxs (s : State) (P : List Nat) (m : Fin Muxmax) :
    (muxfind s P).1.muxs m =
      if m.val = muxfind_index s P then
        { s.muxs m with
          path := if hitIdx s P = Muxmax then strncpy P Pathmax else (s.muxs m).path
          c := (s.muxs m).c + 1 }
      else s.muxs m := by
  rcases Nat.lt_or_ge (hitIdx s P) Muxmax with hlt | hge
  · have hne : hitIdx s P ≠ Muxmax := Nat.ne_of_lt hlt
    rw [muxfind_found s P hlt, muxfind_index_of_hit s P hlt]
    simp only [muxs_setPt, if_neg hne]
    split
    · rename_i h
      simp only [← h, pt_fin]
    · rfl
  · have heq : hitIdx s P = Muxmax := Nat.le_antisymm (hitIdx_le s P) hge
    have hidx : muxfind_index s P = freeIdx s := by simp [muxfind_index, heq]
    rcases Nat.lt_or_ge (freeIdx s) Muxmax with hf | hf
    · rw [muxfind_claim s P heq hf, hidx]
      simp only [muxs_setPt, heq, if_true]
      split
      · rename_i h
        simp only [← h, pt_fin]
      · rfl
    · have hfe : freeIdx s = Muxmax := Nat.le_antisymm (freeIdx_le s) hf
      rw [muxfind_full s P heq hfe, hidx, hfe]
      have : m.val ≠ Muxmax := Nat.ne_of_lt m.isLt
      simp only [if_neg this]

theorem mux_openr_path_c (s : State) (P : List Nat) (m : Fin Muxmax) :
    ((mux_openr s P).1.muxs m).path = ((muxfind s P).1.muxs m).path ∧
      ((mux_openr s P).1.muxs m).c = ((muxfind s P).1.muxs m).c := by
  rcases Nat.lt_or_ge (muxfind_index s P) Muxmax with hlt | hge
  · cases hp : s.k.pdec s.k.npipe with
    | some e =>
      rw [mux_openr_pipe_fail s P e hlt hp]
      exact ⟨rfl, rfl⟩
    | none =>
      rw [mux_openr_pipe_ok s P hlt hp]
      split
      · exact ⟨rfl, rfl⟩
      · simp only [muxs_setPt]
        split
        · rename_i h
          simp only [← h, pt_fin, and_self]
        · exact ⟨rfl, rfl⟩
  · have heq : muxfind_index s P = Muxmax := Nat.le_antisymm (muxfind_index_le s P) hge
    rw [mux_openr_unresolved s P heq]
    exact ⟨rfl, rfl⟩

/-- What `mux_open` does to the paths and refcounts of the registry: nothing, or what
`muxfind` does. -/
theorem mux_open_path_c (s : State) (P : List Nat) (fi : fuse_file_info) :
    (∀ m : Fin Muxmax, ((mux_open s P fi).1.muxs m).path = (s.muxs m).path ∧
        ((mux_open s P fi).1.muxs m).c = (s.muxs m).c) ∨
      (strlen P ≤ Pathmax - 1 ∧
        (fi.flags &&& 3 = O_RDONLY ∨ fi.flags &&& 3 = O_WRONLY) ∧
        ∀ m : Fin Muxmax, ((mux_open s P fi).1.muxs m).path = ((muxfind s P).1.muxs m).path ∧
          ((mux_open s P fi).1.muxs m).c = ((muxfind s P).1.muxs m).c) := by
  simp only [mux_open]
  split_ifs with h1 h2 h3
  · exact Or.inl (fun _ => ⟨rfl, rfl⟩)
  · exact Or.inr ⟨by omega, Or.inl h2, fun m => mux_openr_path_c s P m⟩
  · exact Or.inr ⟨by omega, Or.inr h3, fun _ => ⟨rfl, rfl⟩⟩
  · exact Or.inl (fun _ => ⟨rfl, rfl⟩)

/-! ## Mode check, index safety, handle values -/

/-- C17: for every state and every path of at most 31 characters, if the access mode in the
open flags is neither read-only nor write-only, `mux_open` returns `-EACCES` and the state
(registry and kernel) is unchanged. -/
theorem mux_open_bad_mode (s : State) (P : List Nat) (fi : fuse_file_info)
    (hlen : strlen P ≤ Pathmax - 1) (hrd : fi.flags &&& 3 ≠ O_RDONLY)
    (hwr : fi.flags &&& 3 ≠ O_WRONLY) :
    (mux_open s P fi).2.2 = -EACCES ∧ (mux_open s P fi).1 = s := by
  have hnot : ¬ (strlen P > Pathmax - 1) := by omega
  simp only [mux_open, if_neg hnot, if_neg hrd, if_neg hwr, and_self]

/-- Instance of C17: `/a` opened with `O_RDWR` (2) on the registry after 8 readers. -/
theorem mux_open_bad_mode_witness :
    (mux_open (eightReaders false) pathA { flags := 2, fh := 0, direct_io := 0, nonseekable := 0 }).2.2
        = -EACCES ∧
      (mux_open (eightReaders false) pathA
        { flags := 2, fh := 0, direct_io := 0, nonseekable := 0 }).1 = eightReaders false :=
  mux_open_bad_mode (eightReaders false) pathA _ (by decide) (by decide) (by decide)

/-- C20, as the code has it: when all 8 entries hold non-empty paths and none of them equals
`P`, the statement `muxs[i].c++` of `muxfind` runs with `i = 8`, outside the registry. -/
theorem muxfind_index_out_of_range (s : State) (P : List Nat)
    (hfull : ∀ i : Fin Muxmax, (s.muxs i).path.headD 0 ≠ 0)
    (hnone : ∀ i : Fin Muxmax, cstr (s.muxs i).path ≠ cstr P) :
    muxfind_index s P = Muxmax ∧ ¬ (muxfind_index s P < Muxmax) := by
  have h : muxfind_index s P = Muxmax := by
    simp only [muxfind_index, hitIdx_eq_max s P hnone, if_true, freeIdx_eq_max s hfull]
  exact ⟨h, by omega⟩

/-- The failing input of C20: `muxfind("/z")` on the registry that holds `/a` to `/h`. -/
theorem muxfind_index_out_of_range_witness :
    muxfind_index fullState pathZ = Muxmax ∧ ¬ (muxfind_index fullState pathZ < Muxmax) :=
  muxfind_index_out_of_range fullState pathZ (by decide) (by decide)

/-- C19, as the code has it: for `m`, `i`, `m2` below 8, the write handle `m` and the read
handle `i*8+m2`, as stored in `fi->fh`, are equal exactly when `i = 0` and `m2 = m`: the
read handle of slot 0 of a mux point has the value of the write handle of that point. -/
theorem handle_values_meet (m i m2 : Nat) (hm : m < Muxmax) (hi : i < Readmax)
    (hm2 : m2 < Muxmax) :
    toU64 (m : Int) = toU64 (rhandle i m2) ↔ i = 0 ∧ m2 = m := by
  simp only [Muxmax, Readmax] at hm hi hm2
  have hcast : rhandle i m2 = ((i * 8 + m2 : Nat) : Int) := by simp [rhandle, Muxmax]
  rw [hcast, toU64_natCast _ (by omega), toU64_natCast _ (by omega)]
  omega

/-- Instance of C19 (amended): write handle 3 against the read handle of slot 0 of point 3. -/
theorem handle_values_meet_witness :
    toU64 ((3 : Nat) : Int) = toU64 (rhandle 0 3) ↔ (0 : Nat) = 0 ∧ (3 : Nat) = 3 :=
  handle_values_meet 3 0 3 (by decide) (by decide) (by decide)

/-- C19 as stated fails: from the initial registry, the write-only open of `/a` and the
following read-only open of `/a` both put the value 0 into `fi->fh`. -/
theorem write_handle_equals_read_handle :
    (mux_open emptyState pathA (fiWr 0)).2.1.fh = 0 ∧
      (mux_open (mux_open emptyState pathA (fiWr 0)).1 pathA (fiRd 0)).2.1.fh = 0 ∧
      toU64 ((0 : Nat) : Int) = toU64 (rhandle 0 0) := by
  decide

/-! ## Path-length boundary -/

theorem slot_scan_lt (wh : Fin Readmax → Int) (h : ∃ j : Fin Readmax, wh j = 0) :
    scan (fun i => rd wh i == 0) Readmax 0 < Readmax := by
  rcases Nat.lt_or_ge (scan (fun i => rd wh i == 0) Readmax 0) Readmax with hlt | hge
  · exact hlt
  · exfalso
    obtain ⟨j, hj⟩ := h
    have hb := scan_before (fun i => rd wh i == 0) Readmax 0 j.val (Nat.zero_le _) (by
      have := j.isLt
      omega)
    simp only [rd_lt wh j.val j.isLt, beq_eq_false_iff_ne, ne_eq] at hb
    exact hb hj

theorem toU64_rhandle (i m : Nat) (hi : i < Readmax) (hm : m < Muxmax) :
    toU64 (rhandle i m) = i * Muxmax + m := by
  have hcast : rhandle i m = ((i * Muxmax + m : Nat) : Int) := by simp [rhandle]
  rw [hcast]
  exact toU64_natCast _ (by
    simp only [Muxmax, Readmax] at hi hm ⊢
    omega)

theorem mux_open_returns_zero_aux (s : State) (P : List Nat) (fi : fuse_file_info)
    (hlen : strlen P ≤ Pathmax - 1)
    (hmode : fi.flags &&& 3 = O_RDONLY ∨ fi.flags &&& 3 = O_WRONLY) :
    (mux_open s P fi).2.2 = 0 := by
  rcases hmode with h | h
  · rw [mux_open_rd s P fi hlen h]
  · rw [mux_open_wr s P fi hlen h]

theorem muxfind_index_lt_of_free (s : State) (P : List Nat)
    (hfree : ∃ i : Fin Muxmax, (s.muxs i).path.headD 0 = 0) : muxfind_index s P < Muxmax := by
  unfold muxfind_index
  split
  · exact freeIdx_lt s hfree
  · rename_i h
    have := hitIdx_le s P
    omega

theorem mux_open_core_paths (s : State) (P : List Nat) (fi : fuse_file_info)
    (hlen : strlen P ≤ Pathmax - 1)
    (hmode : fi.flags &&& 3 = O_RDONLY ∨ fi.flags &&& 3 = O_WRONLY) (i : Nat)
    (hi : i < Muxmax) :
    ((mux_open s P fi).1.pt i).path = ((muxfind s P).1.pt i).path := by
  rcases hmode with h | h
  · rw [mux_open_rd s P fi hlen h, pt_lt _ _ hi, pt_lt _ _ hi]
    exact (mux_openr_path_c s P ⟨i, hi⟩).1
  · rw [mux_open_wr s P fi hlen h]

/-- C11: `mux_open` returns `-ENAMETOOLONG` exactly when the path has 32 or more characters,
and then the state is unchanged.  A path of exactly 31 characters opened read-only or
write-only while a free entry exists makes `mux_open` return 0; the entry taken for it then
holds the complete path, 31 characters long, and a later lookup of the same path (first loop
of `muxfind`, and `muxfind` itself) finds that entry; for a write-only open the handle put
into `fi->fh` is the index of that entry. -/
theorem path_length_boundary (s : State) (P : List Nat) (fi : fuse_file_info) :
    ((mux_open s P fi).2.2 = -ENAMETOOLONG ↔ Pathmax ≤ strlen P) ∧
      (Pathmax ≤ strlen P → (mux_open s P fi).1 = s) ∧
      (strlen P = Pathmax - 1 → (∃ i : Fin Muxmax, (s.muxs i).path.headD 0 = 0) →
        (fi.flags &&& 3 = O_RDONLY ∨ fi.flags &&& 3 = O_WRONLY) →
        (mux_open s P fi).2.2 = 0 ∧ muxfind_index s P < Muxmax ∧
          cstr ((mux_open s P fi).1.pt (muxfind_index s P)).path = cstr P ∧
          (cstr ((mux_open s P fi).1.pt (muxfind_index s P)).path).length = 31 ∧
          hitIdx (mux_open s P fi).1 P = muxfind_index s P ∧
          (muxfind (mux_open s P fi).1 P).2 = (muxfind_index s P : Int) ∧
          (fi.flags &&& 3 = O_WRONLY → (mux_open s P fi).2.1.fh = muxfind_index s P) ∧
          (fi.flags &&& 3 = O_RDONLY → s.k.pdec s.k.npipe = none →
            (∃ j : Fin Readmax, (s.pt (muxfind_index s P)).wh j = 0) →
            ∃ i, i < Readmax ∧ (mux_open s P fi).2.1.fh = i * Muxmax + muxfind_index s P)) := by
  have hP : Pathmax = 32 := rfl
  refine ⟨?_, ?_, ?_⟩
  · simp only [mux_open]
    split_ifs with h1 h2 h3
    · simp only [true_iff]; omega
    · constructor
      · intro h
        have h0 : (0 : Int) = -ENAMETOOLONG := h
        exact absurd h0 (by decide)
      · intro h; omega
    · constructor
      · intro h
        have h0 : (0 : Int) = -ENAMETOOLONG := h
        exact absurd h0 (by decide)
      · intro h; omega
    · constructor
      · intro h
        have h0 : (-EACCES : Int) = -ENAMETOOLONG := h
        exact absurd h0 (by decide)
      · intro h; omega
  · intro h
    have : strlen P > Pathmax - 1 := by omega
    simp only [mux_open, if_pos this]
  · intro h31 hfree hmode
    have hlen : strlen P ≤ Pathmax - 1 := by omega
    have hidx := muxfind_index_lt_of_free s P hfree
    have hafter := hitIdx_after s P hlen hidx
    have hhit : hitIdx (mux_open s P fi).1 P = muxfind_index s P := by
      rw [← hafter]
      exact hitIdx_congr _ _ P (fun i hi => mux_open_core_paths s P fi hlen hmode i hi)
    have hstored : cstr ((mux_open s P fi).1.pt (muxfind_index s P)).path = cstr P := by
      have := hitIdx_hit (mux_open s P fi).1 P (by rw [hhit]; exact hidx)
      rw [hhit] at this
      exact this
    refine ⟨(mux_open_returns_zero_aux s P fi hlen hmode), hidx, hstored, ?_, hhit, ?_, ?_, ?_⟩
    · rw [hstored]
      unfold strlen at h31
      omega
    · rw [muxfind_found _ P (by rw [hhit]; exact hidx), hhit]
    · intro hw
      rw [mux_open_wr s P fi hlen hw]
      show toU64 (muxfind s P).2 = muxfind_index s P
      rw [muxfind_ret_of_lt s P hidx]
      exact toU64_natCast _ (by have hM : Muxmax = 8 := rfl; omega)
    · intro hr hp hslot
      have hlt := slot_scan_lt _ hslot
      refine ⟨_, hlt, ?_⟩
      rw [mux_open_rd s P fi hlen hr, mux_openr_pipe_ok s P hidx hp, if_neg (Nat.ne_of_lt hlt)]
      exact toU64_rhandle _ _ hlt hidx

set_option maxRecDepth 100000 in
/-- Instance of C11: a 31-character path is opened write-only from the initial registry and
found again at entry 0; the same path with one more character is refused. -/
theorem path_length_boundary_witness :
    ((mux_open emptyState path31 (fiWr 0)).2.2 = 0 ∧
        hitIdx (mux_open emptyState path31 (fiWr 0)).1 path31 = muxfind_index emptyState path31 ∧
        (cstr ((mux_open emptyState path31 (fiWr 0)).1.pt
          (muxfind_index emptyState path31)).path).length = 31) ∧
      (mux_open emptyState path32 (fiWr 0)).2.2 = -ENAMETOOLONG ∧
      (mux_open emptyState path32 (fiWr 0)).1 = emptyState :=
  ⟨(fun h => ⟨h.1, h.2.2.2.2.1, h.2.2.2.1⟩)
      ((path_length_boundary emptyState path31 (fiWr 0)).2.2 (by decide) (by decide)
        (Or.inr (by decide))),
    (path_length_boundary emptyState path32 (fiWr 0)).1.2 (by decide),
    (path_length_boundary emptyState path32 (fiWr 0)).2.1 (by decide)⟩

/-! ## Release: postcondition and frame -/

theorem release_ref_muxs (s : State) (m : Nat) (m2 : Fin Muxmax) :
    (release_ref s m).muxs m2 =
      if m2.val = m then
        { s.muxs m2 with
          c := (s.muxs m2).c - 1
          path := if (s.muxs m2).c - 1 = 0 then (s.muxs m2).path.set 0 0 else (s.muxs m2).path }
      else s.muxs m2 := by
  simp only [release_ref]
  by_cases hm2 : m2.val = m
  · subst hm2
    by_cases h2 : (s.muxs m2).c - 1 = 0
    · simp only [pt_setPt, m2.isLt, and_self, if_true, pt_fin, h2, muxs_setPt]
    · simp only [pt_setPt, m2.isLt, and_self, if_true, pt_fin, h2, if_false, muxs_setPt]
  · split <;> simp only [muxs_setPt, if_neg hm2]

theorem release_slot_path_c (s : State) (fi : fuse_file_info) (hin : fhSlot fi.fh < Readmax)
    (m2 : Fin Muxmax) :
    ((release_slot s fi).muxs m2).path = (s.muxs m2).path ∧
      ((release_slot s fi).muxs m2).c = (s.muxs m2).c := by
  rw [release_slot_of_lt s fi hin]
  by_cases hf : fi.flags &&& 3 = O_RDONLY
  · by_cases hm2 : m2.val = fhMux fi.fh
    · simp only [if_pos hf, ← hm2, muxs_setPt, if_true, pt_fin, and_self]
    · simp only [if_pos hf, muxs_setPt, if_neg hm2, and_self]
  · simp only [if_neg hf, and_self]

/-- C12: `mux_release` on the read handle `i*8+m` (`i, m < 8`) with read-only flags closes the
two descriptors of slot `i` of point `m` and yields a registry that differs from the old one
only at point `m`: the two cells of slot `i` are 0, the refcount is one less, and the path has
its first byte reset (it is the empty string) if the new refcount is 0; the other slots of
point `m` and every other point are unchanged.  With write-only flags and the handle `m`, the
kernel and all slots are unchanged, and only the refcount and, at zero, the path of point `m`
change in the same way. -/
theorem release_frame (s : State) (fi : fuse_file_info) (i m : Nat) (hi : i < Readmax)
    (hm : m < Muxmax) :
    (fi.flags &&& 3 = O_RDONLY → fi.fh = i * Muxmax + m →
      (mux_release s fi).2 = 0 ∧
        (∀ m2 : Fin Muxmax, m2.val ≠ m → (mux_release s fi).1.muxs m2 = s.muxs m2) ∧
        (∀ j : Fin Readmax, ((mux_release s fi).1.muxs ⟨m, hm⟩).wh j
          = if j.val = i then 0 else (s.muxs ⟨m, hm⟩).wh j) ∧
        (∀ j : Fin Readmax, ((mux_release s fi).1.muxs ⟨m, hm⟩).rh j
          = if j.val = i then 0 else (s.muxs ⟨m, hm⟩).rh j) ∧
        ((mux_release s fi).1.muxs ⟨m, hm⟩).c = (s.muxs ⟨m, hm⟩).c - 1 ∧
        ((mux_release s fi).1.muxs ⟨m, hm⟩).path
          = (if (s.muxs ⟨m, hm⟩).c - 1 = 0 then (s.muxs ⟨m, hm⟩).path.set 0 0
             else (s.muxs ⟨m, hm⟩).path) ∧
        (mux_release s fi).1.k
          = sys_close (sys_close s.k ((s.muxs ⟨m, hm⟩).rh ⟨i, hi⟩)) ((s.muxs ⟨m, hm⟩).wh ⟨i, hi⟩)) ∧
      (fi.flags &&& 3 = O_WRONLY → fi.fh = m →
        (mux_release s fi).2 = 0 ∧
          (∀ m2 : Fin Muxmax, m2.val ≠ m → (mux_release s fi).1.muxs m2 = s.muxs m2) ∧
          ((mux_release s fi).1.muxs ⟨m, hm⟩).wh = (s.muxs ⟨m, hm⟩).wh ∧
          ((mux_release s fi).1.muxs ⟨m, hm⟩).rh = (s.muxs ⟨m, hm⟩).rh ∧
          ((mux_release s fi).1.muxs ⟨m, hm⟩).c = (s.muxs ⟨m, hm⟩).c - 1 ∧
          ((mux_release s fi).1.muxs ⟨m, hm⟩).path
            = (if (s.muxs ⟨m, hm⟩).c - 1 = 0 then (s.muxs ⟨m, hm⟩).path.set 0 0
               else (s.muxs ⟨m, hm⟩).path) ∧
          (mux_release s fi).1.k = s.k) := by
  constructor
  · intro hf hfh
    obtain ⟨hmux, hslot⟩ := fh_decode i m hm
    rw [← hfh] at hmux hslot
    have hin : fhSlot fi.fh < Readmax := by rw [hslot]; exact hi
    refine ⟨rfl, ?_, ?_, ?_, ?_, ?_, ?_⟩
    · intro m2 hm2
      have hm2b : m2.val ≠ fhMux fi.fh := by rw [hmux]; exact hm2
      simp only [mux_release, release_ref_muxs, if_neg hm2b]
      have h1 := release_slot_wh s fi hin m2
      have h2 := release_slot_rh s fi hin m2
      have h3 := release_slot_path_c s fi hin m2
      simp only [hm2b, and_false, if_false] at h1 h2
      cases hx : (release_slot s fi).muxs m2
      cases hy : s.muxs m2
      simp only [hx, hy] at h1 h2 h3
      simp only [h1, h2, h3.1, h3.2]
    · intro j
      simp only [mux_release, release_ref_muxs, hmux, if_true, release_slot_wh s fi hin, hf,
        true_and, wr, hslot]
    · intro j
      simp only [mux_release, release_ref_muxs, hmux, if_true, release_slot_rh s fi hin, hf,
        true_and, wr, hslot]
    · simp only [mux_release, release_ref_muxs, hmux, if_true, release_slot_path_c s fi hin]
    · simp only [mux_release, release_ref_muxs, hmux, if_true, release_slot_path_c s fi hin]
    · simp only [mux_release, release_ref_k, release_slot_k s fi hin, if_pos hf, hmux, hslot,
        pt_lt _ _ hm, rd_lt _ _ hi]
  · intro hf hfh
    have hnot : fi.flags &&& 3 ≠ O_RDONLY := by rw [hf]; decide
    have hmux : fhMux fi.fh = m := by rw [hfh]; exact fhMux_lt m hm
    have hs : release_slot s fi = s := by simp only [release_slot, if_neg hnot]
    refine ⟨rfl, ?_, ?_, ?_, ?_, ?_, ?_⟩
    · intro m2 hm2
      have hm2b : m2.val ≠ fhMux fi.fh := by rw [hmux]; exact hm2
      simp only [mux_release, release_ref_muxs, if_neg hm2b, hs]
    · simp only [mux_release, release_ref_muxs, hmux, if_true, hs]
    · simp only [mux_release, release_ref_muxs, hmux, if_true, hs]
    · simp only [mux_release, release_ref_muxs, hmux, if_true, hs]
    · simp only [mux_release, release_ref_muxs, hmux, if_true, hs]
    · simp only [mux_release, release_ref_k, hs]

set_option maxRecDepth 100000 in
/-- Instance of C12: in the state with a writer and a reader on `/a` and on `/b`, releasing
the reader of `/a` takes one off the refcount of entry 0 and resets slot 0; releasing the
writer of `/b` leaves the kernel alone. -/
theorem release_frame_witness :
    (((mux_release isoBase (fiRd 0)).1.muxs ⟨0, by decide⟩).c
        = (isoBase.muxs ⟨0, by decide⟩).c - 1 ∧
      ∀ j : Fin Readmax, ((mux_release isoBase (fiRd 0)).1.muxs ⟨0, by decide⟩).wh j
        = if j.val = 0 then 0 else (isoBase.muxs ⟨0, by decide⟩).wh j) ∧
      (mux_release isoBase (fiWr 1)).1.k = isoBase.k :=
  ⟨(fun h => ⟨h.2.2.2.2.1, h.2.2.1⟩)
      ((release_frame isoBase (fiRd 0) 0 0 (by decide) (by decide)).1 (by decide) (by decide)),
    ((release_frame isoBase (fiWr 1) 0 1 (by decide) (by decide)).2 (by decide)
      (by decide)).2.2.2.2.2.2⟩

/-! ## Directory listing -/

theorem cstr_drop_one (l : List Nat) (h : l.headD 0 = 47) :
    cstr (l.drop 1) = (cstr l).drop 1 := by
  cases l with
  | nil => simp at h
  | cons a t =>
    simp only [List.headD_cons] at h
    subst h
    simp [cstr, List.takeWhile_cons]

theorem readdir_loop_eq (s : State)
    (hsep : ∀ i : Fin Muxmax, (s.muxs i).path.headD 0 = 0 ∨ (s.muxs i).path.headD 0 = 47) :
    ∀ n i, i + n ≤ Muxmax →
      readdir_loop s n i =
        ((List.range' i n).filter (fun j => (s.pt j).path.headD 0 != 0)).map
          (fun j => (cstr (s.pt j).path).drop 1) := by
  intro n
  induction n with
  | zero => intro i _; rfl
  | succ n ih =>
    intro i hin
    have hi : i < Muxmax := by omega
    unfold readdir_loop
    rw [List.range'_succ, ih (i + 1) (by omega)]
    have hs := hsep ⟨i, hi⟩
    rw [← pt_lt s i hi] at hs
    rcases hs with h0 | h47
    · have hne : ¬ ((s.pt i).path.headD 0 = 47) := by rw [h0]; decide
      have hb : ((s.pt i).path.headD 0 != 0) = false := by rw [h0]; decide
      simp only [if_neg hne, List.filter_cons, hb, Bool.false_eq_true, if_false]
    · have hb : ((s.pt i).path.headD 0 != 0) = true := by rw [h47]; decide
      simp only [if_pos h47, List.filter_cons, hb, if_true, List.map_cons,
        cstr_drop_one _ h47]

/-- C16: for every registry in which each path is empty or begins with the separator (the
data model of the registry), `mux_readdir` on the root path returns 0 and passes to `filler`
`.`, `..` and then, in index order, for exactly the entries whose path is non-empty, the
path without its leading separator; on any other path it passes nothing and returns
`-ENOENT`. -/
theorem readdir_lists (s : State) (P : List Nat)
    (hsep : ∀ i : Fin Muxmax, (s.muxs i).path.headD 0 = 0 ∨ (s.muxs i).path.headD 0 = 47) :
    (cstr P = [47] →
        mux_readdir s P =
          ([46] :: [46, 46] ::
            ((List.range Muxmax).filter (fun j => (s.pt j).path.headD 0 != 0)).map
              (fun j => (cstr (s.pt j).path).drop 1), 0)) ∧
      (cstr P ≠ [47] → mux_readdir s P = ([], -ENOENT)) := by
  have hroot : cstr [47] = [47] := by decide
  constructor
  · intro h
    have hs : ¬ (streq P [47] = false) := by
      simp only [streq, h, hroot, beq_self_eq_true, Bool.true_eq_false, not_false_eq_true]
    simp only [mux_readdir, if_neg hs, readdir_loop_eq s hsep Muxmax 0 (by omega),
      List.range_eq_range']
  · intro h
    have hs : streq P [47] = false := by
      rw [streq_false_iff, hroot]; exact h
    simp only [mux_readdir, if_pos hs]

set_option maxRecDepth 100000 in
/-- Instance of C16: the registry holding `/a` and `/b` lists `.`, `..`, `a`, `b`; the path
`/a` is no directory. -/
theorem readdir_lists_witness :
    mux_readdir isoBase [47] = ([[46], [46, 46], [97], [98]], 0) ∧
      mux_readdir isoBase pathA = ([], -ENOENT) :=
  ⟨((readdir_lists isoBase [47] (by decide)).1 (by decide)).trans (by decide),
    (readdir_lists isoBase pathA (by decide)).2 (by decide)⟩

/-! ## Path uniqueness -/

theorem hitIdx_max_none (s : State) (P : List Nat) (h : hitIdx s P = Muxmax)
    (k : Fin Muxmax) : cstr (s.muxs k).path ≠ cstr P := by
  have hb := scan_before (fun i => streq (s.pt i).path P) Muxmax 0 k.val (Nat.zero_le _) (by
    have := k.isLt
    unfold hitIdx at h
    omega)
  simp only [pt_fin] at hb
  exact (streq_false_iff _ _).1 hb

theorem UniquePaths.congr {s t : State} (h : UniquePaths s)
    (hp : ∀ m : Fin Muxmax, (t.muxs m).path = (s.muxs m).path) : UniquePaths t := by
  intro i j hij hne
  rw [hp i] at hne ⊢
  rw [hp j]
  exact h i j hij hne

theorem uniquePaths_muxfind (s : State) (P : List Nat) (hlen : strlen P ≤ Pathmax - 1)
    (h : UniquePaths s) : UniquePaths (muxfind s P).1 := by
  by_cases hhit : hitIdx s P = Muxmax
  · have hcp : cstr (strncpy P Pathmax) = cstr P :=
      cstr_strncpy P Pathmax (by have hP : Pathmax = 32 := rfl; omega)
    have hnone := hitIdx_max_none s P hhit
    have hpath : ∀ m : Fin Muxmax, cstr ((muxfind s P).1.muxs m).path
        = if m.val = muxfind_index s P then cstr P else cstr (s.muxs m).path := by
      intro m
      rw [muxfind_muxs]
      split
      · simp only [hhit, if_true, hcp]
      · rfl
    intro i j hij hne
    rw [hpath i] at hne ⊢
    rw [hpath j]
    by_cases hi : i.val = muxfind_index s P
    · have hj : j.val ≠ muxfind_index s P := fun hj => hij (Fin.ext (hi.trans hj.symm))
      simp only [if_pos hi, if_neg hj]
      exact fun he => hnone j he.symm
    · simp only [if_neg hi] at hne ⊢
      by_cases hj : j.val = muxfind_index s P
      · simp only [if_pos hj]
        exact hnone i
      · simp only [if_neg hj]
        exact h i j hij hne
  · refine h.congr ?_
    intro m
    rw [muxfind_muxs]
    split
    · simp only [if_neg hhit]
    · rfl

theorem uniquePaths_open (s : State) (P : List Nat) (fi : fuse_file_info)
    (h : UniquePaths s) : UniquePaths (mux_open s P fi).1 := by
  rcases mux_open_path_c s P fi with h1 | ⟨hlen, _, h2⟩
  · exact h.congr (fun m => (h1 m).1)
  · exact (uniquePaths_muxfind s P hlen h).congr (fun m => (h2 m).1)

theorem mux_release_path (s : State) (fi : fuse_file_info) (hin : fhSlot fi.fh < Readmax)
    (m : Fin Muxmax) :
    ((mux_release s fi).1.muxs m).path = (s.muxs m).path ∨
      cstr ((mux_release s fi).1.muxs m).path = [] := by
  simp only [mux_release, release_ref_muxs]
  split
  · simp only
    split
    · right
      exact (cstr_eq_nil_iff _).2 (headD_set_zero _)
    · left
      exact (release_slot_path_c s fi hin m).1
  · left
    exact (release_slot_path_c s fi hin m).1

/-- The release of a handle whose slot index is inside the array keeps the paths distinct. -/
theorem uniquePaths_release (s : State) (fi : fuse_file_info) (hin : fhSlot fi.fh < Readmax)
    (h : UniquePaths s) : UniquePaths (mux_release s fi).1 := by
  intro i j hij hne
  rcases mux_release_path s fi hin i with hi | hi
  · rw [hi] at hne ⊢
    rcases mux_release_path s fi hin j with hj | hj
    · rw [hj]; exact h i j hij hne
    · rw [hj]; exact hne
  · exact absurd hi hne

/-! ## The refcount invariant along traces -/

theorem headD_of_cstr (l : List Nat) (h : (cstr l).headD 0 = 47) : l.headD 0 = 47 := by
  cases l with
  | nil => simp [cstr] at h
  | cons a t =>
    by_cases ha : a = 0
    · simp [cstr, List.takeWhile_cons, ha] at h
    · have hb : (a != 0) = true := by simpa using ha
      simpa [cstr, List.takeWhile_cons, hb] using h

theorem headD_strncpy (P : List Nat) (h : (cstr P).headD 0 = 47) :
    (strncpy P Pathmax).headD 0 = 47 := by
  unfold strncpy
  cases hc : cstr P with
  | nil => rw [hc] at h; simp at h
  | cons a t =>
    rw [hc] at h
    simp only [List.headD_cons] at h
    subst h
    simp [Pathmax]

/-- A handle yielded by an open decodes to the entry that `muxfind` resolved. -/
theorem open_yields_mux (s : State) (P : List Nat) (fi : fuse_file_info)
    (hlen : strlen P ≤ Pathmax - 1) (h : OpenYields s P fi) :
    muxfind_index s P < Muxmax ∧ fhMux (mux_open s P fi).2.1.fh = muxfind_index s P ∧
      fhSlot (mux_open s P fi).2.1.fh < Readmax := by
  have hidx_of : ∀ r : Int, (muxfind s P).2 = r → 0 ≤ r → muxfind_index s P < Muxmax := by
    intro r hr h0
    rcases Nat.lt_or_ge (muxfind_index s P) Muxmax with hlt | hge
    · exact hlt
    · exfalso
      have heq : muxfind_index s P = Muxmax := Nat.le_antisymm (muxfind_index_le s P) hge
      rw [muxfind_ret, if_pos heq] at hr
      have : (-ENOMEM : Int) < 0 := by decide
      omega
  rcases h with ⟨hf, h0⟩ | ⟨hf, h0⟩
  · have hidx : muxfind_index s P < Muxmax := by
      rcases Nat.lt_or_ge (muxfind_index s P) Muxmax with hlt | hge
      · exact hlt
      · exfalso
        have heq : muxfind_index s P = Muxmax := Nat.le_antisymm (muxfind_index_le s P) hge
        rw [mux_openr_unresolved s P heq] at h0
        have h1 : (0 : Int) ≤ -ENOMEM := h0
        exact absurd h1 (by decide)
    refine ⟨hidx, ?_⟩
    rw [mux_open_rd s P fi hlen hf]
    show fhMux (toU64 (mux_openr s P).2) = _ ∧ fhSlot (toU64 (mux_openr s P).2) < Readmax
    cases hp : s.k.pdec s.k.npipe with
    | some e =>
      exfalso
      rw [mux_openr_pipe_fail s P e hidx hp] at h0
      have := e.pos
      simp only at h0
      omega
    | none =>
      rw [mux_openr_pipe_ok s P hidx hp] at h0 ⊢
      split at h0
      · have h1 : (0 : Int) ≤ -ENOMEM := h0
        exact absurd h1 (by decide)
      · rename_i hne
        rw [if_neg hne]
        have hle := scan_le (fun i => rd (s.pt (muxfind_index s P)).wh i == 0) Readmax 0
        rw [toU64_rhandle _ _ (by omega) hidx]
        refine ⟨(fh_decode _ _ hidx).1, ?_⟩
        rw [(fh_decode _ _ hidx).2]
        omega
  · have hidx := hidx_of _ rfl h0
    refine ⟨hidx, ?_⟩
    rw [mux_open_wr s P fi hlen hf]
    show fhMux (toU64 (muxfind s P).2) = _ ∧ fhSlot (toU64 (muxfind s P).2) < Readmax
    rw [muxfind_ret_of_lt s P hidx, toU64_natCast _ (by have hM : Muxmax = 8 := rfl; omega)]
    refine ⟨fhMux_lt _ hidx, ?_⟩
    simp only [fhSlot, Muxmax, Readmax] at hidx ⊢
    omega

theorem handlesOn_cons (fi : fuse_file_info) (L : List fuse_file_info) (m : Nat) :
    handlesOn (fi :: L) m = handlesOn L m + (if fhMux fi.fh = m then 1 else 0) := by
  simp only [handlesOn, List.countP_cons, beq_iff_eq]

theorem handlesOn_append (L1 L2 : List fuse_file_info) (m : Nat) :
    handlesOn (L1 ++ L2) m = handlesOn L1 m + handlesOn L2 m := by
  simp only [handlesOn, List.countP_append]

theorem mux_open_path_c_core (s : State) (P : List Nat) (fi : fuse_file_info)
    (hlen : strlen P ≤ Pathmax - 1)
    (hmode : fi.flags &&& 3 = O_RDONLY ∨ fi.flags &&& 3 = O_WRONLY) (m : Fin Muxmax) :
    ((mux_open s P fi).1.muxs m).path = ((muxfind s P).1.muxs m).path ∧
      ((mux_open s P fi).1.muxs m).c = ((muxfind s P).1.muxs m).c := by
  rcases hmode with h | h
  · rw [mux_open_rd s P fi hlen h]
    exact mux_openr_path_c s P m
  · rw [mux_open_wr s P fi hlen h]
    exact ⟨rfl, rfl⟩

theorem RefInv.unchanged {s t : State} {L L2 : List fuse_file_info} (h : RefInv s L)
    (hpc : ∀ m : Fin Muxmax, (t.muxs m).path = (s.muxs m).path ∧ (t.muxs m).c = (s.muxs m).c)
    (hcount : ∀ m : Fin Muxmax, handlesOn L2 m.val ≤ handlesOn L m.val) : RefInv t L2 := by
  refine ⟨?_, ?_, ?_⟩
  · intro m; rw [(hpc m).1, (hpc m).2]; exact h.zero_iff m
  · intro m
    rw [(hpc m).2]
    have h1 := h.counted m
    have h2 := hcount m
    omega
  · intro m; rw [(hpc m).1]; exact h.sep m

/-- The invariant after a call whose effect on paths and refcounts is that of
`muxfind(P)`, when at most one open file is added, on the entry resolved. -/
theorem RefInv.after_find {s t : State} {L L2 : List fuse_file_info} (h : RefInv s L)
    (P : List Nat) (hhead : (cstr P).headD 0 = 47)
    (hpc : ∀ m : Fin Muxmax, (t.muxs m).path = ((muxfind s P).1.muxs m).path ∧
      (t.muxs m).c = ((muxfind s P).1.muxs m).c)
    (hcount : ∀ m : Fin Muxmax,
      handlesOn L2 m.val ≤ handlesOn L m.val + (if m.val = muxfind_index s P then 1 else 0)) :
    RefInv t L2 := by
  have key : ∀ m : Fin Muxmax, m.val = muxfind_index s P →
      (t.muxs m).path.headD 0 = 47 ∧ (t.muxs m).c = (s.muxs m).c + 1 ∧ 0 ≤ (s.muxs m).c := by
    intro m hm
    have hc := h.counted m
    have hnn : 0 ≤ (s.muxs m).c := by omega
    rw [(hpc m).1, (hpc m).2, muxfind_muxs, if_pos hm]
    refine ⟨?_, rfl, hnn⟩
    by_cases hhit : hitIdx s P = Muxmax
    · simp only [if_pos hhit]
      exact headD_strncpy P hhead
    · simp only [if_neg hhit]
      have hlt : hitIdx s P < Muxmax := by
        have := hitIdx_le s P
        omega
      have hcs := hitIdx_hit s P hlt
      rw [← muxfind_index_of_hit s P hlt, ← hm, pt_fin] at hcs
      exact headD_of_cstr _ (by rw [hcs]; exact hhead)
  have other : ∀ m : Fin Muxmax, m.val ≠ muxfind_index s P →
      (t.muxs m).path = (s.muxs m).path ∧ (t.muxs m).c = (s.muxs m).c := by
    intro m hm
    rw [(hpc m).1, (hpc m).2, muxfind_muxs, if_neg hm]
    exact ⟨rfl, rfl⟩
  refine ⟨?_, ?_, ?_⟩
  · intro m
    by_cases hm : m.val = muxfind_index s P
    · obtain ⟨h1, h2, h3⟩ := key m hm
      rw [h1, h2]
      constructor
      · intro h0; omega
      · intro h0; exact absurd h0 (by decide)
    · rw [(other m hm).1, (other m hm).2]; exact h.zero_iff m
  · intro m
    have hc := h.counted m
    have hn := hcount m
    by_cases hm : m.val = muxfind_index s P
    · obtain ⟨_, h2, _⟩ := key m hm
      rw [h2]
      simp only [if_pos hm] at hn
      omega
    · rw [(other m hm).2]
      simp only [if_neg hm] at hn
      omega
  · intro m
    by_cases hm : m.val = muxfind_index s P
    · exact Or.inr (key m hm).1
    · rw [(other m hm).1]; exact h.sep m

theorem refInv_release (s : State) (L1 L2 : List fuse_file_info) (fi : fuse_file_info)
    (hin : fhSlot fi.fh < Readmax) (h : RefInv s (L1 ++ fi :: L2)) :
    RefInv (mux_release s fi).1 (L1 ++ L2) := by
  have hmlt : fhMux fi.fh < Muxmax := Nat.mod_lt _ (by decide)
  have hcnt : ∀ m : Nat, handlesOn (L1 ++ fi :: L2) m
      = handlesOn (L1 ++ L2) m + (if fhMux fi.fh = m then 1 else 0) := by
    intro m
    simp only [handlesOn_append, handlesOn_cons]
    omega
  have hst : ∀ m : Fin Muxmax, (mux_release s fi).1.muxs m =
      if m.val = fhMux fi.fh then
        { (release_slot s fi).muxs m with
          c := (s.muxs m).c - 1
          path := if (s.muxs m).c - 1 = 0 then (s.muxs m).path.set 0 0 else (s.muxs m).path }
      else (release_slot s fi).muxs m := by
    intro m
    simp only [mux_release, release_ref_muxs, release_slot_path_c s fi hin]
  refine ⟨?_, ?_, ?_⟩
  · intro m
    rw [hst m]
    by_cases hm : m.val = fhMux fi.fh
    · simp only [if_pos hm]
      by_cases hz : (s.muxs m).c - 1 = 0
      · simp only [hz, if_true, headD_set_zero]
      · simp only [hz, if_false, false_iff]
        intro h0
        have hc := h.counted m
        rw [hcnt m.val, if_pos hm.symm] at hc
        have := (h.zero_iff m).2 h0
        push_cast at hc
        omega
    · simp only [if_neg hm, release_slot_path_c s fi hin]
      exact h.zero_iff m
  · intro m
    rw [hst m]
    have hc := h.counted m
    rw [hcnt m.val] at hc
    by_cases hm : m.val = fhMux fi.fh
    · simp only [if_pos hm]
      rw [if_pos hm.symm] at hc
      push_cast at hc
      omega
    · simp only [if_neg hm, release_slot_path_c s fi hin]
      rw [if_neg (fun he => hm he.symm)] at hc
      push_cast at hc
      omega
  · intro m
    rw [hst m]
    by_cases hm : m.val = fhMux fi.fh
    · simp only [if_pos hm]
      by_cases hz : (s.muxs m).c - 1 = 0
      · simp only [hz, if_true, headD_set_zero, true_or]
      · simp only [hz, if_false]
        exact h.sep m
    · simp only [if_neg hm, release_slot_path_c s fi hin]
      exact h.sep m

/-- The open files of a trace hold handles whose slot index is inside the array. -/
theorem trace_handles (s : State) (L : List fuse_file_info) (h : Trace s L) :
    ∀ fi ∈ L, fhSlot fi.fh < Readmax := by
  induction h with
  | start pdec wdec =>
    intro fi hfi
    simp at hfi
  | opened s L path fi _ _ hlen hy ih =>
    intro fi2 hfi2
    rcases List.mem_cons.1 hfi2 with h1 | h1
    · rw [h1]
      exact (open_yields_mux s path fi hlen hy).2.2
    · exact ih fi2 h1
  | failed s L path fi _ _ _ _ ih => exact ih
  | released s L1 L2 fi _ ih =>
    intro fi2 hfi2
    apply ih fi2
    rcases List.mem_append.1 hfi2 with h1 | h1
    · exact List.mem_append.2 (Or.inl h1)
    · exact List.mem_append.2 (Or.inr (List.mem_cons_of_mem _ h1))

/-- The refcount invariant holds along every trace. -/
theorem trace_refInv (s : State) (L : List fuse_file_info) (h : Trace s L) : RefInv s L := by
  induction h with
  | start pdec wdec =>
    refine ⟨?_, ?_, ?_⟩
    · intro m
      simp [State.init, zeroPoint, Pathmax]
    · intro m
      simp [State.init, zeroPoint, handlesOn]
    · intro m
      left
      simp [State.init, zeroPoint, Pathmax]
  | opened s L path fi _ hhead hlen hy ih =>
    have hmode : fi.flags &&& 3 = O_RDONLY ∨ fi.flags &&& 3 = O_WRONLY := by
      rcases hy with ⟨hf, _⟩ | ⟨hf, _⟩
      · exact Or.inl hf
      · exact Or.inr hf
    obtain ⟨_, hmux, _⟩ := open_yields_mux s path fi hlen hy
    refine ih.after_find path hhead (fun m => mux_open_path_c_core s path fi hlen hmode m) ?_
    intro m
    rw [handlesOn_cons, hmux]
    by_cases hm : m.val = muxfind_index s path
    · simp only [hm, if_true, le_refl]
    · have hm2 : ¬ (muxfind_index s path = m.val) := fun he => hm he.symm
      simp only [if_neg hm, if_neg hm2, le_refl]
  | failed s L path fi _ hhead hlen _ ih =>
    rcases mux_open_path_c s path fi with h1 | ⟨_, _, h2⟩
    · exact ih.unchanged h1 (fun _ => Nat.le_refl _)
    · exact ih.after_find path hhead h2 (fun m => Nat.le_add_right _ _)
  | released s L1 L2 fi ht ih =>
    exact refInv_release s L1 L2 fi
      (trace_handles _ _ ht fi (List.mem_append.2 (Or.inr (List.mem_cons_self _ _)))) ih

/-- Along a trace, in which only the handles that an open yielded are released, every registry
entry has refcount 0 if and only if its path is the empty string. -/
theorem refcount_zero_iff_path_empty (s : State) (L : List fuse_file_info) (h : Trace s L)
    (m : Fin Muxmax) : (s.muxs m).c = 0 ↔ cstr (s.muxs m).path = [] := by
  rw [cstr_eq_nil_iff]
  exact (trace_refInv s L h).zero_iff m

set_option maxRecDepth 100000 in
/-- The failing input of C13, as a trace: 8 read-only opens of `/a`, a ninth that fails, then
the release of the 8 handles.  No open file is left. -/
theorem leak_trace : Trace leakState [] := by
  have t0 : Trace (State.init (fun n => if n = 8 ∧ false = true then some EMFILE else none)
      (fun _ => WDecision.accept 65536)) [] := Trace.start _ _
  have t1 := Trace.opened _ _ pathA (fiRd 0) t0 (by decide) (by decide)
    (Or.inl ⟨by decide, by decide⟩)
  have t2 := Trace.opened _ _ pathA (fiRd 0) t1 (by decide) (by decide)
    (Or.inl ⟨by decide, by decide⟩)
  have t3 := Trace.opened _ _ pathA (fiRd 0) t2 (by decide) (by decide)
    (Or.inl ⟨by decide, by decide⟩)
  have t4 := Trace.opened _ _ pathA (fiRd 0) t3 (by decide) (by decide)
    (Or.inl ⟨by decide, by decide⟩)
  have t5 := Trace.opened _ _ pathA (fiRd 0) t4 (by decide) (by decide)
    (Or.inl ⟨by decide, by decide⟩)
  have t6 := Trace.opened _ _ pathA (fiRd 0) t5 (by decide) (by decide)
    (Or.inl ⟨by decide, by decide⟩)
  have t7 := Trace.opened _ _ pathA (fiRd 0) t6 (by decide) (by decide)
    (Or.inl ⟨by decide, by decide⟩)
  have t8 := Trace.opened _ _ pathA (fiRd 0) t7 (by decide) (by decide)
    (Or.inl ⟨by decide, by decide⟩)
  have t9 := Trace.failed _ _ pathA (fiRd 0) t8 (by decide) (by decide)
    (by unfold OpenYields; decide)
  have r7 := Trace.released _ [] _ _ t9
  have r6 := Trace.released _ [] _ _ r7
  have r5 := Trace.released _ [] _ _ r6
  have r4 := Trace.released _ [] _ _ r5
  have r3 := Trace.released _ [] _ _ r4
  have r2 := Trace.released _ [] _ _ r3
  have r1 := Trace.released _ [] _ _ r2
  have r0 := Trace.released _ [] _ _ r1
  exact r0

set_option maxRecDepth 100000 in
/-- C13 fails on the code: after 8 read-only opens of `/a`, a ninth that fails for want of a
free slot, and the release of all 8 handles (a trace with no open file left), entry 0 still
holds `/a` with refcount 1, and a lookup of `/a` finds it; its 8 reader slots are empty.
Releasing also the value that the failed open left in `fi->fh` (`2^64 - 12`) takes one off
the refcount of entry 4 instead. -/
theorem reclaim_leaves_entry :
    Trace leakState [] ∧
      cstr (leakState.muxs ⟨0, by decide⟩).path = pathA ∧
      (leakState.muxs ⟨0, by decide⟩).c = 1 ∧
      hitIdx leakState pathA = 0 ∧
      (∀ j : Fin Readmax, (leakState.muxs ⟨0, by decide⟩).wh j = 0 ∧
        (leakState.muxs ⟨0, by decide⟩).rh j = 0) ∧
      (mux_open (eightReaders false) pathA (fiRd 0)).2.1.fh = 2 ^ 64 - 12 ∧
      ((mux_release leakState (fiRd (2 ^ 64 - 12))).1.muxs ⟨0, by decide⟩).c = 1 ∧
      ((mux_release leakState (fiRd (2 ^ 64 - 12))).1.muxs ⟨4, by decide⟩).c = -1 :=
  ⟨leak_trace, by decide, by decide, by decide, by decide, by decide, by decide, by decide⟩

/-! ## `writeall` ends -/

theorem writeall_from_fuel_succ (fd : Int) (buf : List Nat) :
    ∀ (fuel : Nat) (k : Kernel) (o : Nat) (x : Kernel × Int),
      writeall_from fuel k fd buf o = some x → writeall_from (fuel + 1) k fd buf o = some x := by
  intro fuel
  induction fuel with
  | zero => intro k o x h; simp [writeall_from] at h
  | succ fuel ih =>
    intro k o x h
    unfold writeall_from at h
    rw [writeall_from]
    by_cases h1 : o < buf.length
    · rw [if_pos h1] at h ⊢
      simp only at h ⊢
      by_cases h2 : (sys_write k fd (List.drop o buf)).2 < 0
      · rw [if_pos h2] at h ⊢
        exact h
      · rw [if_neg h2] at h ⊢
        exact ih _ _ _ h
    · rw [if_neg h1] at h ⊢
      exact h

theorem writeall_from_fuel_le (fd : Int) (buf : List Nat) (fuel fuel2 : Nat) (k : Kernel)
    (o : Nat) (x : Kernel × Int) (hle : fuel ≤ fuel2)
    (h : writeall_from fuel k fd buf o = some x) : writeall_from fuel2 k fd buf o = some x := by
  induction hle with
  | refl => exact h
  | step _ ih => exact writeall_from_fuel_succ fd buf _ k o x ih

/-- With an environment that accepts at least one byte whenever it accepts, `writeall` ends
within as many iterations as bytes are left, plus one. -/
theorem writeall_from_total (fd : Int) (buf : List Nat) :
    ∀ (rem fuel : Nat) (k : Kernel) (o : Nat), buf.length - o ≤ rem → o ≤ buf.length →
      rem + 1 ≤ fuel → (∀ c n, k.wdec c = WDecision.accept n → 1 ≤ n) →
      ∃ k1 r, writeall_from fuel k fd buf o = some (k1, r) ∧ k1.wdec = k.wdec ∧
        ((r = (buf.length : Int) ∧ AllAccepted k k.nwrite k1.nwrite ∧
            (o < buf.length → ∃ q, k.fdt fd = some (true, q))) ∨
          (r < 0 ∧ LastCallFailed k k1 fd)) := by
  intro rem
  induction rem with
  | zero =>
    intro fuel k o hrem ho hfuel _
    obtain ⟨f, rfl⟩ : ∃ f, fuel = f + 1 := ⟨fuel - 1, by omega⟩
    have hnot : ¬ (o < buf.length) := by omega
    have ho2 : o = buf.length := by omega
    refine ⟨k, (o : Int), ?_, rfl, Or.inl ⟨by rw [ho2], ?_, fun h => absurd h hnot⟩⟩
    · unfold writeall_from
      rw [if_neg hnot]
    · intro c h1 h2; omega
  | succ rem ih =>
    intro fuel k o hrem ho hfuel henv
    obtain ⟨f, rfl⟩ : ∃ f, fuel = f + 1 := ⟨fuel - 1, by omega⟩
    by_cases hlt : o < buf.length
    · unfold writeall_from
      rw [if_pos hlt]
      simp only
      cases hfd : k.fdt fd with
      | none =>
        refine ⟨{ k with errno := EBADF }, 0 - EBADF, ?_, rfl, Or.inr ⟨by decide, Or.inl ?_⟩⟩
        · simp only [sys_write, hfd]
          rfl
        · exact ⟨fun q => by rw [hfd]; simp, rfl, rfl⟩
      | some v =>
        obtain ⟨w, q⟩ := v
        cases w with
        | false =>
          refine ⟨{ k with errno := EBADF }, 0 - EBADF, ?_, rfl, Or.inr ⟨by decide, Or.inl ?_⟩⟩
          · simp only [sys_write, hfd]
            rfl
          · exact ⟨fun q2 => by rw [hfd]; simp, rfl, rfl⟩
        | true =>
          cases hd : k.wdec k.nwrite with
          | fail e =>
            have hpos := e.pos
            refine ⟨{ k with nwrite := k.nwrite + 1, errno := e.val }, 0 - (e.val : Int), ?_, rfl,
              Or.inr ⟨by omega, Or.inr ⟨e, Nat.lt_succ_self _, hd, rfl, ?_⟩⟩⟩
            · simp only [sys_write, hfd, hd]
              rfl
            · intro c h1 h2
              simp only [Nat.add_sub_cancel] at h2
              omega
          | accept n =>
            have hn := henv _ _ hd
            have hlen : ((buf.drop o).take n).length = min n (buf.length - o) := by
              rw [List.length_take, List.length_drop]
            have hnn : ¬ (((List.take n (List.drop o buf)).length : Int) < 0) := by omega
            simp only [sys_write, hfd, hd, if_neg hnn, Int.toNat_natCast]
            obtain ⟨k1, r, hrun, hwd, hres⟩ := ih f
              { k with
                nwrite := k.nwrite + 1
                buf := fun x => if x = q then k.buf q ++ (buf.drop o).take n else k.buf x
                wlog := k.wlog ++ [(fd, (buf.drop o).take n)] }
              (o + ((buf.drop o).take n).length) (by rw [hlen]; omega) (by rw [hlen]; omega)
              (by omega) henv
            refine ⟨k1, r, hrun, hwd, ?_⟩
            rcases hres with ⟨hr, hall, _⟩ | ⟨hr, hlast⟩
            · left
              refine ⟨hr, ?_, fun _ => ⟨q, rfl⟩⟩
              intro c h1 h2
              by_cases hc : c = k.nwrite
              · rw [hc]; exact ⟨n, hd⟩
              · exact hall c (by simp only; omega) h2
            · right
              refine ⟨hr, ?_⟩
              rcases hlast with ⟨hbad, _, _⟩ | ⟨e, h1, h2, h3, h4⟩
              · exact absurd hfd (hbad q)
              · simp only at h1 h2 h4
                refine Or.inr ⟨e, by omega, h2, h3, ?_⟩
                intro c hc1 hc2
                by_cases hc : c = k.nwrite
                · rw [hc]; exact ⟨n, hd⟩
                · exact h4 c (by omega) hc2
    · have ho2 : o = buf.length := by omega
      refine ⟨k, (o : Int), ?_, rfl, Or.inl ⟨by rw [ho2], ?_, fun h => absurd h hlt⟩⟩
      · unfold writeall_from
        rw [if_neg hlt]
      · intro c h1 h2; omega

/-- C18: for every buffer and every environment in which a `write` call that does not fail
accepts at least one byte (and at most what is left), `writeall` ends: within `size + 1`
iterations it returns, and the result is the same for any larger bound.  Either it returns
`size`, every call made was accepted (on a non-empty buffer the descriptor is the write end
of a pipe), the bytes accepted, in call order, are the buffer, and they were appended to the
pipe; or it returns `-errno` of a failing call, which is the last call made, every call
before it having been accepted, and only a proper initial part of the buffer was written. -/
theorem writeall_complete (k : Kernel) (fd : Int) (buf : List Nat)
    (henv : ∀ c n, k.wdec c = WDecision.accept n → 1 ≤ n) :
    ∃ k1 r, (∀ fuel, buf.length + 1 ≤ fuel → writeall fuel k fd buf = some (k1, r)) ∧
      ((r = (buf.length : Int) ∧ Wrote k k1 fd buf ∧ AllAccepted k k.nwrite k1.nwrite ∧
          (buf ≠ [] → ∃ q, k.fdt fd = some (true, q))) ∨
        (r < 0 ∧ r = -k1.errno ∧ LastCallFailed k k1 fd ∧
          ∃ d rest, rest ≠ [] ∧ d ++ rest = buf ∧ Wrote k k1 fd d)) := by
  obtain ⟨k1, r, hrun, _, hres⟩ := writeall_from_total fd buf buf.length (buf.length + 1) k 0
    (by omega) (Nat.zero_le _) (Nat.le_refl _) henv
  have hrun2 : writeall (buf.length + 1) k fd buf = some (k1, r) := hrun
  refine ⟨k1, r, ?_, ?_⟩
  · intro fuel hfuel
    exact writeall_from_fuel_le fd buf _ fuel k 0 _ hfuel hrun
  · rcases writeall_spec _ _ _ _ _ _ hrun2 with ⟨hr, hw⟩ | ⟨hr, herr, hpart⟩
    · rcases hres with ⟨_, hall, hfd⟩ | ⟨hneg, _⟩
      · left
        refine ⟨hr, hw, hall, ?_⟩
        intro hne
        apply hfd
        cases buf with
        | nil => exact absurd rfl hne
        | cons a t => simp
      · omega
    · rcases hres with ⟨hsz, _, _⟩ | ⟨_, hlast⟩
      · omega
      · exact Or.inr ⟨hr, herr, hlast, hpart⟩

set_option maxRecDepth 100000 in
/-- Instance of C18: `hi` written to the pipe of the reader of `/a`. -/
theorem writeall_complete_witness :
    (∃ k1 r, (∀ fuel, bytesHi.length + 1 ≤ fuel →
          writeall fuel isoBase.k 4 bytesHi = some (k1, r)) ∧
        ((r = (bytesHi.length : Int) ∧ Wrote isoBase.k k1 4 bytesHi ∧
            AllAccepted isoBase.k isoBase.k.nwrite k1.nwrite ∧
            (bytesHi ≠ [] → ∃ q, isoBase.k.fdt 4 = some (true, q))) ∨
          (r < 0 ∧ r = -k1.errno ∧ LastCallFailed isoBase.k k1 4 ∧
            ∃ d rest, rest ≠ [] ∧ d ++ rest = bytesHi ∧ Wrote isoBase.k k1 4 d))) ∧
      (writeall 3 isoBase.k 4 bytesHi).map (fun x => x.2) = some 2 ∧
      (writeall 3 isoBase.k 5 bytesHi).map (fun x => x.2) = some (-9) :=
  ⟨writeall_complete isoBase.k 4 bytesHi (fun c n h => by
      have h2 : WDecision.accept 65536 = WDecision.accept n := h
      cases h2
      decide),
    by decide, by decide⟩


/-! ## Releasing the record of a failed open -/

/-- Paths stay distinct along every trace, in which only handles that an open yielded are
released. -/
theorem trace_uniquePaths (s : State) (L : List fuse_file_info) (h : Trace s L) :
    UniquePaths s := by
  induction h with
  | start pdec wdec =>
    intro i j _ hne
    exact absurd (by decide : cstr (List.replicate Pathmax 0) = []) hne
  | opened s L path fi _ _ _ _ ih => exact uniquePaths_open s path fi ih
  | failed s L path fi _ _ _ _ ih => exact uniquePaths_open s path fi ih
  | released s L1 L2 fi ht ih =>
    exact uniquePaths_release s fi
      (trace_handles _ _ ht fi (List.mem_append.2 (Or.inr (List.mem_cons_self _ _)))) ih

set_option maxRecDepth 100000 in
/-- C14 fails on the code: each of 9 read-only opens of `/a` from the initial registry
returns 0 to its caller; the first 8 leave the read handles 0, 8, ..., 56 in `fi->fh` and the
ninth, which finds no free reader slot, leaves `2^64 - 12`.  After the release of each of the
9 records, entry 4 has refcount -1 with an empty path, and entry 0 has refcount 1 with the
path `/a`: entry 4 has an empty path without having refcount 0. -/
theorem failed_open_release_breaks_refcount :
    (∀ s : State, (mux_open s pathA (fiRd 0)).2.2 = 0) ∧
      nineOpens.2.map (fun fi => fi.fh) = [0, 8, 16, 24, 32, 40, 48, 56, 2 ^ 64 - 12] ∧
      (nineReleased.muxs ⟨4, by decide⟩).c = -1 ∧
      cstr (nineReleased.muxs ⟨4, by decide⟩).path = [] ∧
      (nineReleased.muxs ⟨0, by decide⟩).c = 1 ∧
      cstr (nineReleased.muxs ⟨0, by decide⟩).path = pathA ∧
      ¬ ((nineReleased.muxs ⟨4, by decide⟩).c = 0 ↔
        cstr (nineReleased.muxs ⟨4, by decide⟩).path = []) :=
  ⟨fun s => mux_open_returns_zero_aux s pathA (fiRd 0) (by decide) (Or.inl (by decide)),
    by decide, by decide, by decide, by decide, by decide, by decide⟩

set_option maxRecDepth 100000 in
/-- C15 fails on the code: in the state `dupBase` entry 0 holds the 24-character path
`path24` with all 8 reader slots claimed, entry 4 holds the 31-character path `path24r`,
which begins with those 24 characters, with refcount 2, and no two entries hold the same
path.  A ninth read-only open of `path24` finds no free slot, returns 0 and leaves `2^64 - 12`
in `fi->fh`; the paths are still distinct.  In the release of that record `m` is 4 and the
slot index `i` is -2, the store `muxs[4].rh[-2] = 0` falls on `path[24..27]` of entry 4, and
afterwards entry 4 holds the same non-empty path `path24` as entry 0. -/
theorem failed_open_release_merges_paths :
    UniquePaths dupBase ∧ UniquePaths dupOpen.1 ∧
      cstr (dupOpen.1.muxs ⟨0, by decide⟩).path = path24 ∧
      cstr (dupOpen.1.muxs ⟨4, by decide⟩).path = path24r ∧
      strlen path24r = 31 ∧
      dupOpen.2.2 = 0 ∧ dupOpen.2.1.flags = O_RDONLY ∧ dupOpen.2.1.fh = 2 ^ 64 - 12 ∧
      fhMux dupOpen.2.1.fh = 4 ∧ slotIndex dupOpen.2.1.fh = -2 ∧
      rhAddr 4 (-2) = 4 * 100 + 24 ∧
      cstr (dupState.muxs ⟨0, by decide⟩).path = path24 ∧
      cstr (dupState.muxs ⟨4, by decide⟩).path = path24 ∧
      (dupState.muxs ⟨4, by decide⟩).c = 1 ∧
      ¬ UniquePaths dupState :=
  ⟨by unfold UniquePaths; decide, by unfold UniquePaths; decide, by decide, by decide,
    by decide, by decide, by decide, by decide, by decide, by decide, by decide, by decide,
    by decide, by decide,
    fun h => h ⟨0, by decide⟩ ⟨4, by decide⟩ (by decide) (by decide) (by decide)⟩

end Mux
